import Mathlib

/-!
Verification development for the SEC 13F dashboard (src/app.py).

The file shallowly embeds the filing-parsing pipeline (`parse_info_table_xml`,
`parse_text_info_table`) and the normalization / quarter-over-quarter analytics engine
(`analyze_holdings`) as executable Lean definitions, and proves properties of them.

Modelling conventions:
- Python floats are modelled as rationals (`ℚ`); all quantities occurring in the
  program (values, share counts) are exact decimals, so no rounding behaviour is lost.
- Quarter labels such as "2024Q1" are modelled as the natural number
  `4 * year + (qtr - 1)`; for four-digit years the numeric order of these codes agrees
  with Python's lexicographic ordering of the label strings, which is the order the
  program sorts by.
- Text is modelled on `List Char`; `charUpper`, `lexLt`, `hasSubstr` reimplement the
  ASCII behaviour of Python's `str.upper`, `<` on strings, and the `in` operator.
- A Python exception escaping a function is modelled by an `Option` result (`none` =
  the exception propagated); an exception caught by a `try/except` that returns a
  default is modelled by returning that default.
-/

namespace Sec13F

/-- Uppercases an ASCII letter, models Python `str.upper` per character (all text the
program inspects is ASCII). -/
def charUpper (c : Char) : Char :=
  if 'a' ≤ c && c ≤ 'z' then Char.ofNat (c.toNat - 32) else c

/-- Tests whether the first list is an initial segment of the second. -/
def startsWith : List Char → List Char → Bool
  | [], _ => true
  | _ :: _, [] => false
  | p :: ps, c :: cs => p == c && startsWith ps cs

/-- Tests whether `pat` occurs contiguously inside the second list; models Python's
`in` operator on strings. -/
def hasSubstr (pat : List Char) : List Char → Bool
  | [] => startsWith pat []
  | c :: cs => startsWith pat (c :: cs) || hasSubstr pat cs

/-- Code-point lexicographic comparison of character lists; models Python `<` on
strings (used by `sorted` on quarter labels and by pandas when sorting group keys). -/
def lexLt : List Char → List Char → Bool
  | [], [] => false
  | [], _ :: _ => true
  | _ :: _, [] => false
  | a :: as, b :: bs =>
    if a.toNat < b.toNat then true
    else if b.toNat < a.toNat then false
    else lexLt as bs

/-- String comparison via `lexLt`. -/
def strLt (a b : String) : Bool := lexLt a.toList b.toList

/-- Accumulator-style tokenizer: splits a character list into the maximal runs of
characters satisfying `p` (`cur` holds the current run, reversed). -/
def tokensByAux (p : Char → Bool) : List Char → List Char → List String
  | cur, [] => if cur.isEmpty then [] else [String.mk cur.reverse]
  | cur, c :: cs =>
    if p c then tokensByAux p (c :: cur) cs
    else if cur.isEmpty then tokensByAux p [] cs
    else String.mk cur.reverse :: tokensByAux p [] cs

/-- Maximal runs of word characters; models `re.findall(r"\b\w+\b", line)`
(src/app.py line 138), which on the header lines in question returns exactly the
maximal `\w+` runs. -/
def wordTokens (s : String) : List String :=
  tokensByAux (fun c => c.isAlphanum || c == '_') [] s.toList

/-- Maximal runs of non-whitespace characters; models `re.findall(r"\S+", line)`
(src/app.py line 148). -/
def wsTokens (s : String) : List String :=
  tokensByAux (fun c => !c.isWhitespace) [] s.toList

/-- Numeric value of a digit run. -/
def digitsVal (ds : List Char) : Nat := ds.foldl (fun n c => 10 * n + (c.toNat - 48)) 0

/-- Scans an unsigned decimal literal (digits with an optional fractional part),
returning (integer part, fractional part, fractional digit count). -/
def scanUnsigned (cs : List Char) : Option (Nat × Nat × Nat) :=
  let intPart := cs.takeWhile Char.isDigit
  let rest := cs.dropWhile Char.isDigit
  if rest.isEmpty then
    if intPart.isEmpty then none else some (digitsVal intPart, 0, 0)
  else if rest.headD ' ' == '.' && (rest.drop 1).all Char.isDigit
          && !(intPart.isEmpty && (rest.drop 1).isEmpty) then
    some (digitsVal intPart, digitsVal (rest.drop 1), (rest.drop 1).length)
  else none

/-- Scans an optionally signed decimal literal, returning
(negative sign, integer part, fractional part, fractional digit count). -/
def scanFloat (s : String) : Option (Bool × Nat × Nat × Nat) :=
  let cs := s.toList
  if cs.headD ' ' == '-' then (scanUnsigned (cs.drop 1)).map (fun t => (true, t))
  else if cs.headD ' ' == '+' then (scanUnsigned (cs.drop 1)).map (fun t => (false, t))
  else (scanUnsigned cs).map (fun t => (false, t))

/-- Models Python's `float(str)` on the plain decimal literals occurring in filings:
an optional sign followed by digits with an optional fractional part. `none` models
the `ValueError` raised on any other string (exponent and infinity forms, which the
parsers never meet, are also mapped to `none`). -/
def parseFloat (s : String) : Option ℚ :=
  (scanFloat s).map (fun t =>
    (cond t.1 (-1 : ℚ) 1) * ((t.2.1 : ℚ) + (t.2.2.1 : ℚ) / (10 : ℚ) ^ t.2.2.2))

/-- Calendar date carried in `period_of_report` (only year and month feed the quarter
derivation `dt.to_period("Q")`, src/app.py line 184). -/
structure PDate where
  year : Nat
  month : Nat
  day : Nat
deriving DecidableEq

/-- Quarter code from a year and a quarter number 1..4: quarters are modelled as the
natural number `4 * year + (qtr - 1)`; for four-digit years the numeric order of
these codes coincides with the string order of pandas quarter labels such as
"2024Q1", which is the order the program sorts by. -/
def mkQuarter (year qtr : Nat) : Nat := 4 * year + (qtr - 1)

/-- Quarter of a date; models `pd.to_datetime(...).dt.to_period("Q")`
(src/app.py lines 183-184). -/
def quarterOfDate (d : PDate) : Nat := 4 * d.year + (d.month - 1) / 3

/-- The hardcoded anchor quarter "2024Q1" (src/app.py line 190). -/
def q2024Q1 : Nat := mkQuarter 2024 1

/-- One raw holding record as built by either parser (src/app.py lines 115-125 and
151-161): one reported position plus the filing back-references. -/
structure RawHolding where
  accession_number : String
  cik : String
  filing_date : String
  period_of_report : PDate
  filing_manager_name : String
  name_of_issuer : String
  cusip : String
  value : ℚ
  sshprnamt : ℚ
deriving DecidableEq

/-- One `infoTable` element of a structured-markup information table, as seen by the
XPath queries of src/app.py lines 121-124: for each of the four extracted fields,
`some` holds the first text node when present; `none` models an element whose query
returns no text node (for the numeric fields it also covers a text node `float`
rejects), in which case the Python `[0]` indexing (or `float`) raises. -/
structure InfoTable where
  nameOfIssuer : Option String
  cusip : Option String
  value : Option ℚ
  sshPrnamt : Option ℚ
deriving DecidableEq

/-- Builds one holding from one `infoTable` element (src/app.py lines 115-125);
`none` models the exception raised when a field is missing. -/
def extractXmlHolding (accession cik filing_date : String) (por : PDate)
    (manager : String) (t : InfoTable) : Option RawHolding := do
  let issuer ← t.nameOfIssuer
  let cus ← t.cusip
  let v ← t.value
  let s ← t.sshPrnamt
  pure { accession_number := accession, cik := cik, filing_date := filing_date,
         period_of_report := por, filing_manager_name := manager,
         name_of_issuer := issuer, cusip := cus,
         value := v * 1000, sshprnamt := s }

/-- Runs `extractXmlHolding` over all `infoTable` elements in order; `none` as soon
as one element raises (src/app.py loop of lines 114-126). -/
def extractXmlAll (accession cik filing_date : String) (por : PDate)
    (manager : String) : List InfoTable → Option (List RawHolding)
  | [] => some []
  | t :: ts =>
    match extractXmlHolding accession cik filing_date por manager t with
    | none => none
    | some h => (extractXmlAll accession cik filing_date por manager ts).map (h :: ·)

/-- Models `parse_info_table_xml` (src/app.py lines 108-130): the loop over the
`infoTable` elements, with the surrounding `try/except` that returns the empty list
when any element raises (so the holdings accumulated before the failure are
discarded along with the rest). -/
def parse_info_table_xml (tables : List InfoTable) (accession cik filing_date : String)
    (por : PDate) (manager : String) : List RawHolding :=
  match extractXmlAll accession cik filing_date por manager tables with
  | some hs => hs
  | none => []

/-- Association lookup where a later pair with the same key wins; models Python
`dict(zip(headers, fields))` followed by `.get` (src/app.py line 150). -/
def dictGet (pairs : List (String × String)) (k : String) : Option String :=
  ((pairs.filter (fun p => p.1 == k)).getLast?).map (·.2)

/-- Builds one holding from a tokenized legacy-text data row (src/app.py lines
150-161); `none` models the uncaught `ValueError` from `float` on a non-numeric
VALUE or SHARES token. -/
def buildTextHolding (hdrs fields : List String) (accession cik filing_date : String)
    (por : PDate) (manager : String) : Option RawHolding := do
  let d := hdrs.zip fields
  let v ← match dictGet d "VALUE" with
          | none => some (0 : ℚ)
          | some s => parseFloat s
  let sh ← match dictGet d "SHARES" with
           | none => some (0 : ℚ)
           | some s => parseFloat s
  pure { accession_number := accession, cik := cik, filing_date := filing_date,
         period_of_report := por, filing_manager_name := manager,
         name_of_issuer := (dictGet d "NAME").getD "",
         cusip := (dictGet d "CUSIP").getD "",
         value := v * 1000, sshprnamt := sh }

/-- Finds the first line containing "NAME OF ISSUER" (case-insensitively), returning
its word tokens as headers together with the lines from index `i + 2` on
(src/app.py lines 136-143: the line after the header row is skipped as a column
separator). -/
def findHeaderSplit : List String → Option (List String × List String)
  | [] => none
  | l :: ls =>
    if hasSubstr ("NAME OF ISSUER".toList) (l.toList.map charUpper) then
      some (wordTokens l, ls.drop 1)
    else findHeaderSplit ls

/-- Processes the data lines of a legacy text table (src/app.py lines 145-162):
blank lines are skipped, lines with fewer whitespace tokens than headers are
skipped, and every other line contributes one holding; `none` propagates the
uncaught `ValueError` from `float`. -/
def parseTextRows (hdrs : List String) (accession cik filing_date : String)
    (por : PDate) (manager : String) : List String → List RawHolding →
    Option (List RawHolding)
  | [], acc => some acc
  | line :: rest, acc =>
    if (wsTokens line).isEmpty then
      parseTextRows hdrs accession cik filing_date por manager rest acc
    else if hdrs.length ≤ (wsTokens line).length then
      match buildTextHolding hdrs (wsTokens line) accession cik filing_date por manager with
      | some h => parseTextRows hdrs accession cik filing_date por manager rest (acc ++ [h])
      | none => none
    else
      parseTextRows hdrs accession cik filing_date por manager rest acc

/-- Models `parse_text_info_table` (src/app.py lines 132-163) on the already-split
lines of the text content; `some []` is returned when no header line is found, and
`none` models the uncaught `ValueError` from `float` on a malformed numeric token. -/
def parse_text_info_table (lines : List String) (accession cik filing_date : String)
    (por : PDate) (manager : String) : Option (List RawHolding) :=
  match findHeaderSplit lines with
  | none => some []
  | some (hdrs, dataLines) =>
    parseTextRows hdrs accession cik filing_date por manager dataLines []

/-! ### Normalization and analytics engine (src/app.py `analyze_holdings`) -/

/-- The unit-correction heuristic (src/app.py lines 177-181): the value is divided by
1000 when the share count is zero or `value * 1000 / sshprnamt` exceeds 1000. -/
def value_fixed (v s : ℚ) : ℚ :=
  if s = 0 ∨ v * 1000 / s > 1000 then v / 1000 else v

/-- One row of the working DataFrame after the `value_fixed` and `quarter` columns
have been added (src/app.py lines 177-184): only the columns the later analytics
steps read are kept. -/
structure NormRow where
  name_of_issuer : String
  quarter : Nat
  value_fixed : ℚ
  sshprnamt : ℚ
  accession_number : String
deriving DecidableEq

/-- Normalizes one raw holding: derives `value_fixed` and `quarter`
(src/app.py lines 177-184). -/
def normalize (h : RawHolding) : NormRow :=
  { name_of_issuer := h.name_of_issuer,
    quarter := quarterOfDate h.period_of_report,
    value_fixed := value_fixed h.value h.sshprnamt,
    sshprnamt := h.sshprnamt,
    accession_number := h.accession_number }

/-- Inserts into an ascending duplicate-free list, keeping it ascending and
duplicate-free; `lt` is the strict comparison. -/
def insUnique (lt : α → α → Bool) [DecidableEq α] (a : α) : List α → List α
  | [] => [a]
  | b :: l => if lt a b then a :: b :: l else if a = b then b :: l else b :: insUnique lt a l

/-- Ascending duplicate-free list of the elements of `l`; models the combination
`sorted(series.unique())` used throughout `analyze_holdings`. -/
def sortedUnique (lt : α → α → Bool) [DecidableEq α] (l : List α) : List α :=
  l.foldr (insUnique lt) []

/-- Inserts into an ascending list (duplicates kept). -/
def insAsc (lt : α → α → Bool) [DecidableEq α] (a : α) : List α → List α
  | [] => [a]
  | b :: l => if lt b a then b :: insAsc lt a l else a :: b :: l

/-- Ascending sort (duplicates kept); models Python `sorted`. -/
def sortAsc (lt : α → α → Bool) [DecidableEq α] (l : List α) : List α :=
  l.foldr (insAsc lt) []

/-- Strict comparison on quarter codes (the order of the label strings). -/
def qLt (a b : Nat) : Bool := a < b

/-- One step of the quarter-selection loop (src/app.py lines 192-194): append `q`
when it is not yet selected and fewer than 4 quarters are selected. -/
def selStep (acc : List Nat) (q : Nat) : List Nat :=
  if !(acc.contains q) && acc.length < 4 then acc ++ [q] else acc

/-- Models the quarter-selection loop (src/app.py lines 189-195): the target list
starts with "2024Q1", then quarters present in the data are appended most-recent
first while fewer than 4 are selected, and the result is sorted ascending. -/
def select_target_quarters (qs : List Nat) : List Nat :=
  let recent := (sortedUnique qLt qs).reverse
  let target := recent.foldl selStep [q2024Q1]
  sortAsc qLt target

/-- The normalized rows restricted to the selected quarters
(src/app.py line 197: `df = df[df["quarter"].isin(target_quarters)]`). -/
def filteredRows (hs : List RawHolding) : List NormRow :=
  let n := hs.map normalize
  let target := select_target_quarters (n.map (·.quarter))
  n.filter (fun r => target.contains r.quarter)

/-- Summed `value_fixed` over the rows of one (issuer, quarter) group
(src/app.py lines 206-209 / 215-219). -/
def aggValue (rows : List NormRow) (i : String) (q : Nat) : ℚ :=
  ((rows.filter (fun r => r.name_of_issuer == i && r.quarter == q)).map
    (·.value_fixed)).sum

/-- Summed `sshprnamt` over the rows of one (issuer, quarter) group. -/
def aggSsh (rows : List NormRow) (i : String) (q : Nat) : ℚ :=
  ((rows.filter (fun r => r.name_of_issuer == i && r.quarter == q)).map
    (·.sshprnamt)).sum

/-- First `accession_number` of one (issuer, quarter) group, in row order
(src/app.py line 218: the `"first"` aggregate). -/
def aggAcc (rows : List NormRow) (i : String) (q : Nat) : String :=
  ((rows.filter (fun r => r.name_of_issuer == i && r.quarter == q)).map
    (·.accession_number)).headD ""

/-- Ascending duplicate-free list of the quarters an issuer appears in; pandas
`groupby(["name_of_issuer", "quarter"])` sorts each issuer's group keys this way. -/
def quartersOf (rows : List NormRow) (i : String) : List Nat :=
  sortedUnique qLt ((rows.filter (fun r => r.name_of_issuer == i)).map (·.quarter))

/-- Ascending duplicate-free list of the issuers of `rows`; pandas `groupby` sorts
the issuer keys by the string order. -/
def issuersSorted (rows : List NormRow) : List String :=
  sortedUnique strLt (rows.map (·.name_of_issuer))

/-- Pairs each list element with its predecessor, the head getting `none`; the
worker carries the previous element. -/
def attachPrevAux (prev : α) : List α → List (α × Option α)
  | [] => []
  | b :: l => (b, some prev) :: attachPrevAux b l

/-- Pairs each element of a list with the element immediately before it; models the
per-group `shift(1)` of src/app.py lines 210/212/220/222 applied to an issuer's
quarter-ascending rows. -/
def attachPrev : List α → List (α × Option α)
  | [] => []
  | a :: l => (a, none) :: attachPrevAux a l

/-- Group keys of the aggregated frames, in pandas order: issuers ascending, each
issuer's quarters ascending, each quarter paired with the issuer's previous quarter
(src/app.py lines 206-213 and 215-223 share this grouping). -/
def groupKeys (rows : List NormRow) : List (String × Nat × Option Nat) :=
  (issuersSorted rows).flatMap
    (fun i => (attachPrev (quartersOf rows i)).map (fun qp => (i, qp.1, qp.2)))

/-- One row of the `changes` view (src/app.py lines 206-213): absolute-valued
changes with a missing previous quarter treated as 0 (`fillna(0)` then `np.abs`). -/
structure ChangeRow where
  name_of_issuer : String
  quarter : Nat
  value_fixed : ℚ
  sshprnamt : ℚ
  prev_value : Option ℚ
  value_change : ℚ
  prev_sshprnamt : Option ℚ
  sshprnamt_change : ℚ
deriving DecidableEq

/-- One row of the `changes` view (src/app.py lines 206-213). -/
def changeRow (rows : List NormRow) (k : String × Nat × Option Nat) : ChangeRow :=
  { name_of_issuer := k.1,
    quarter := k.2.1,
    value_fixed := aggValue rows k.1 k.2.1,
    sshprnamt := aggSsh rows k.1 k.2.1,
    prev_value := k.2.2.map (aggValue rows k.1),
    value_change := |aggValue rows k.1 k.2.1 - ((k.2.2.map (aggValue rows k.1)).getD 0)|,
    prev_sshprnamt := k.2.2.map (aggSsh rows k.1),
    sshprnamt_change := |aggSsh rows k.1 k.2.1 - ((k.2.2.map (aggSsh rows k.1)).getD 0)| }

/-- The `changes` view (src/app.py lines 206-213). -/
def changes (rows : List NormRow) : List ChangeRow :=
  (groupKeys rows).map (changeRow rows)

/-- One row of the `all_holdings` view (src/app.py lines 215-232): signed changes
that stay null (`none`) when no previous quarter exists, plus the accession link and
the "New Position" status. -/
structure AggRow where
  name_of_issuer : String
  quarter : Nat
  value_fixed : ℚ
  sshprnamt : ℚ
  accession_number : String
  prev_value : Option ℚ
  value_change : Option ℚ
  prev_sshprnamt : Option ℚ
  sshprnamt_change : Option ℚ
  status : String
deriving DecidableEq

/-- One row of the aggregated frame of src/app.py lines 215-223, before the status
column is added: signed deltas staying null (`none`) when no previous quarter
exists. A NaN arithmetic result (`value - NaN`) is modelled directly as `none`,
matching the final sanitization of lines 237-239. -/
def aggDraftRow (rows : List NormRow) (k : String × Nat × Option Nat) : AggRow :=
  { name_of_issuer := k.1,
    quarter := k.2.1,
    value_fixed := aggValue rows k.1 k.2.1,
    sshprnamt := aggSsh rows k.1 k.2.1,
    accession_number := aggAcc rows k.1 k.2.1,
    prev_value := k.2.2.map (aggValue rows k.1),
    value_change := k.2.2.map (fun pq => aggValue rows k.1 k.2.1 - aggValue rows k.1 pq),
    prev_sshprnamt := k.2.2.map (aggSsh rows k.1),
    sshprnamt_change := k.2.2.map (fun pq => aggSsh rows k.1 k.2.1 - aggSsh rows k.1 pq),
    status := "" }

/-- The aggregated frame of src/app.py lines 215-223. -/
def draftRows (rows : List NormRow) : List AggRow :=
  (groupKeys rows).map (aggDraftRow rows)

/-- The last two quarters of the aggregated frame
(src/app.py lines 226-227: `unique_quarters[-2:]`). -/
def lastTwoQuarters (rows : List NormRow) : List Nat :=
  let u := sortedUnique qLt ((draftRows rows).map (·.quarter))
  u.drop (u.length - 2)

/-- The status assignment of src/app.py lines 229-232. -/
def applyStatus (rows : List NormRow) (a : AggRow) : AggRow :=
  { a with status :=
      if a.prev_value.isNone && (lastTwoQuarters rows).contains a.quarter then
        "New Position"
      else "" }

/-- The `all_holdings` view (src/app.py lines 215-232): the aggregated frame with
signed deltas, then the status column computed from the last two of the frame's
quarters. -/
def all_holdings (rows : List NormRow) : List AggRow :=
  (draftRows rows).map (applyStatus rows)

/-- One row of the `top_holdings` view (src/app.py lines 201-204). -/
structure TopRow where
  name_of_issuer : String
  value_fixed : ℚ
  sshprnamt : ℚ
deriving DecidableEq

/-- Maximum of a list of quarter codes; models `df["quarter"].max()`
(src/app.py line 199). -/
def latestQuarter (rows : List NormRow) : Nat :=
  (rows.map (·.quarter)).foldr max 0

/-- Per-issuer aggregates of the latest quarter, issuers ascending (the order pandas
`groupby("name_of_issuer")` leaves the frame in). -/
def latestAggs (rows : List NormRow) : List TopRow :=
  let lrows := rows.filter (fun r => r.quarter == latestQuarter rows)
  (issuersSorted lrows).map (fun i =>
    { name_of_issuer := i,
      value_fixed := ((lrows.filter (fun r => r.name_of_issuer == i)).map (·.value_fixed)).sum,
      sshprnamt := ((lrows.filter (fun r => r.name_of_issuer == i)).map (·.sshprnamt)).sum })

/-- Stable descending insertion by `value_fixed`: the element goes before the first
strictly smaller value, after any tie. -/
def insDescVal (a : TopRow) : List TopRow → List TopRow
  | [] => [a]
  | b :: l => if b.value_fixed ≤ a.value_fixed then a :: b :: l else b :: insDescVal a l

/-- Stable descending sort by `value_fixed`; together with `List.take 5` this models
`nlargest(5, "value_fixed")`, which orders by value descending and keeps ties in
frame order (src/app.py line 204). -/
def sortDescVal : List TopRow → List TopRow
  | [] => []
  | a :: l => insDescVal a (sortDescVal l)

/-- The `top_holdings` view (src/app.py lines 199-204). -/
def top_holdings (rows : List NormRow) : List TopRow :=
  (sortDescVal (latestAggs rows)).take 5

/-- Issuers of the latest quarter in first-appearance (input) order. This definition
follows the SPEC's wording for the top-holdings tie-break ("ties broken by input
order"), not the code; it exists only to be compared against `top_holdings`. -/
def issuersInputOrder (rows : List NormRow) : List String :=
  rows.foldl (fun acc r => if acc.contains r.name_of_issuer then acc
                           else acc ++ [r.name_of_issuer]) []

/-- The top-holdings view as the SPEC describes it: aggregates of the latest quarter
with ties broken by first appearance in the input, then the stable descending sort
and `take 5`. Differs from the code's `top_holdings`, which aggregates in
issuer-name order. -/
def top_holdings_spec (rows : List NormRow) : List TopRow :=
  let lrows := rows.filter (fun r => r.quarter == latestQuarter rows)
  let aggs := (issuersInputOrder lrows).map (fun i =>
    { name_of_issuer := i,
      value_fixed := ((lrows.filter (fun r => r.name_of_issuer == i)).map (·.value_fixed)).sum,
      sshprnamt := ((lrows.filter (fun r => r.name_of_issuer == i)).map (·.sshprnamt)).sum
      : TopRow })
  (sortDescVal aggs).take 5

/-- Descending-by-value order with ties in ascending issuer order: the order in
which `nlargest` leaves the issuer-sorted aggregates. -/
def topOrder (a b : TopRow) : Prop :=
  b.value_fixed < a.value_fixed ∨
    (a.value_fixed = b.value_fixed ∧ strLt a.name_of_issuer b.name_of_issuer = true)

/-- Tests that an `infoTable` element carries all four extracted fields. -/
def hasAllFields (t : InfoTable) : Bool :=
  t.nameOfIssuer.isSome && t.cusip.isSome && t.value.isSome && t.sshPrnamt.isSome

/-! ### Concrete data used to instantiate the theorems -/

/-- Structured-markup filing with one position element reporting value 1000
(thousands) and share count 10. -/
def demoXmlTables : List InfoTable :=
  [{ nameOfIssuer := some "GAMMA CORP", cusip := some "CUSIP0001",
     value := some 1000, sshPrnamt := some 10 }]

/-- Legacy-text filing whose row reports VALUE 500 and SHARES 100000. -/
def demoTextLines : List String :=
  ["NAME OF ISSUER                 CUSIP      VALUE  SHARES",
   "--------------------------------------------------------",
   "ACME CORP COM 123456789 500 100000"]

/-- The two filings of the end-to-end scenario, parsed and concatenated the way
`get_holdings` flattens per-filing results (src/app.py line 170). -/
def demoPipeline : List RawHolding :=
  parse_info_table_xml demoXmlTables "acc-1" "100" "2024-08-14" ⟨2024, 6, 30⟩
      "MANAGER ONE" ++
    (parse_text_info_table demoTextLines "acc-2" "100" "2024-05-15" ⟨2024, 3, 31⟩
      "MANAGER ONE").getD []

/-- The holding the structured-markup parser extracts in the end-to-end scenario. -/
def demoXmlHolding : RawHolding :=
  { accession_number := "acc-1", cik := "100", filing_date := "2024-08-14",
    period_of_report := ⟨2024, 6, 30⟩, filing_manager_name := "MANAGER ONE",
    name_of_issuer := "GAMMA CORP", cusip := "CUSIP0001",
    value := 1000000, sshprnamt := 10 }

/-- The holding the legacy-text parser extracts in the end-to-end scenario. -/
def demoTextHolding : RawHolding :=
  { accession_number := "acc-2", cik := "100", filing_date := "2024-05-15",
    period_of_report := ⟨2024, 3, 31⟩, filing_manager_name := "MANAGER ONE",
    name_of_issuer := "ACME", cusip := "123456789",
    value := 500000, sshprnamt := 100000 }

/-- Legacy-text filing with a 6-token data line whose VALUE token is not numeric. -/
def c9BadLines : List String :=
  ["NAME OF ISSUER                 CUSIP      VALUE  SHARES",
   "--------------------------------------------------------",
   "ACME CORP COM 123456789 N/A 100000"]

/-- Position element missing its `value` field. -/
def c3Missing : InfoTable :=
  { nameOfIssuer := some "ALPHA CORP", cusip := some "CUSIP0002",
    value := none, sshPrnamt := some 5 }

/-- Position element carrying all four fields. -/
def c3Full : InfoTable :=
  { nameOfIssuer := some "BETA CORP", cusip := some "CUSIP0003",
    value := some 7, sshPrnamt := some 3 }

/-- Builds a raw holding the way the parsers stamp one (the `value` argument is the
already 1000-scaled stored value). -/
def mkRaw (issuer cusip acc : String) (por : PDate) (v s : ℚ) : RawHolding :=
  { accession_number := acc, cik := "100", filing_date := "2024-11-14",
    period_of_report := por, filing_manager_name := "SAMPLE MANAGER",
    name_of_issuer := issuer, cusip := cusip, value := v, sshprnamt := s }

/-- Dataset with quarters 2023Q4..2024Q3: issuer "ZETA CORP" in all four quarters,
"XRAY CO" only in 2023Q4, "YANKEE INC" first appearing in 2024Q3. -/
def c4DemoHs : List RawHolding :=
  [mkRaw "ZETA CORP" "CUSIPZ" "acc-z1" ⟨2023, 12, 31⟩ 1000000 10,
   mkRaw "ZETA CORP" "CUSIPZ" "acc-z2" ⟨2024, 3, 31⟩ 1000000 10,
   mkRaw "ZETA CORP" "CUSIPZ" "acc-z3" ⟨2024, 6, 30⟩ 1000000 10,
   mkRaw "ZETA CORP" "CUSIPZ" "acc-z4" ⟨2024, 9, 30⟩ 1000000 10,
   mkRaw "XRAY CO" "CUSIPX" "acc-x1" ⟨2023, 12, 31⟩ 500000 5,
   mkRaw "YANKEE INC" "CUSIPY" "acc-y1" ⟨2024, 9, 30⟩ 250000 5]

/-- One-issuer-two-quarter dataset (2024Q2 and 2024Q3). -/
def c6DemoHs : List RawHolding :=
  [mkRaw "OMEGA LLC" "CUSIPO" "acc-o1" ⟨2024, 6, 30⟩ 1000000 10,
   mkRaw "OMEGA LLC" "CUSIPO" "acc-o2" ⟨2024, 9, 30⟩ 2000000 10]

/-- The same dataset with its two holdings swapped. -/
def c6DemoHsRev : List RawHolding :=
  [mkRaw "OMEGA LLC" "CUSIPO" "acc-o2" ⟨2024, 9, 30⟩ 2000000 10,
   mkRaw "OMEGA LLC" "CUSIPO" "acc-o1" ⟨2024, 6, 30⟩ 1000000 10]

/-- Dataset whose quarters are 2023Q3 and 2024Q1. -/
def c5DemoHs : List RawHolding :=
  [mkRaw "ALPHA CORP" "CUSIPA" "acc-a1" ⟨2024, 3, 31⟩ 1000 1,
   mkRaw "ALPHA CORP" "CUSIPA" "acc-a2" ⟨2023, 9, 30⟩ 1000 1]

/-- Two issuers tied on summed value, appearing in the input in the order
"BRAVO CO" before "ALFA CO". -/
def c7TieRows : List NormRow :=
  [{ name_of_issuer := "BRAVO CO", quarter := mkQuarter 2024 1, value_fixed := 100,
     sshprnamt := 1, accession_number := "acc-b" },
   { name_of_issuer := "ALFA CO", quarter := mkQuarter 2024 1, value_fixed := 100,
     sshprnamt := 1, accession_number := "acc-a" }]

/-- Placeholder rows used with `List.getD`. -/
def dummyAgg : AggRow :=
  { name_of_issuer := "", quarter := 0, value_fixed := 0, sshprnamt := 0,
    accession_number := "", prev_value := none, value_change := none,
    prev_sshprnamt := none, sshprnamt_change := none, status := "" }

/-- Placeholder change row used with `List.getD`. -/
def dummyChange : ChangeRow :=
  { name_of_issuer := "", quarter := 0, value_fixed := 0, sshprnamt := 0,
    prev_value := none, value_change := 0, prev_sshprnamt := none,
    sshprnamt_change := 0 }

/-- Placeholder top row used with `List.getD`. -/
def dummyTop : TopRow := { name_of_issuer := "", value_fixed := 0, sshprnamt := 0 }

/-- Placeholder raw holding used with `List.getD`. -/
def dummyRaw : RawHolding := mkRaw "" "" "" ⟨0, 1, 1⟩ 0 0

/-! ### Order properties of the comparison functions -/

theorem lexLt_irrefl (as : List Char) : lexLt as as = false := by
  induction as with
  | nil => rfl
  | cons a as ih => simp [lexLt, ih]

theorem lexLt_cons_true {a b : Char} {as bs : List Char} :
    lexLt (a :: as) (b :: bs) = true ↔
      a.toNat < b.toNat ∨ (a.toNat = b.toNat ∧ lexLt as bs = true) := by
  simp only [lexLt]
  split_ifs with h1 h2
  · exact iff_of_true rfl (Or.inl h1)
  · simp only [Bool.false_eq_true, false_iff]
    rintro (h | ⟨he, _⟩) <;> omega
  · constructor
    · intro h
      exact Or.inr ⟨by omega, h⟩
    · rintro (h | ⟨_, h⟩)
      · omega
      · exact h

theorem lexLt_cons_false {a b : Char} {as bs : List Char} :
    lexLt (a :: as) (b :: bs) = false ↔
      b.toNat < a.toNat ∨ (a.toNat = b.toNat ∧ lexLt as bs = false) := by
  simp only [lexLt]
  split_ifs with h1 h2
  · simp only [Bool.true_eq_false, false_iff]
    rintro (h | ⟨he, _⟩) <;> omega
  · exact iff_of_true rfl (Or.inl h2)
  · constructor
    · intro h
      exact Or.inr ⟨by omega, h⟩
    · rintro (h | ⟨_, h⟩)
      · omega
      · exact h

theorem lexLt_trans {as bs cs : List Char} (h₁ : lexLt as bs = true)
    (h₂ : lexLt bs cs = true) : lexLt as cs = true := by
  induction as generalizing bs cs with
  | nil =>
    cases bs with
    | nil => exact absurd h₁ (by simp [lexLt])
    | cons b bs =>
      cases cs with
      | nil => exact absurd h₂ (by simp [lexLt])
      | cons c cs => simp [lexLt]
  | cons a as ih =>
    cases bs with
    | nil => exact absurd h₁ (by simp [lexLt])
    | cons b bs =>
      cases cs with
      | nil => exact absurd h₂ (by simp [lexLt])
      | cons c cs =>
        rw [lexLt_cons_true] at h₁ h₂ ⊢
        rcases h₁ with h₁ | ⟨he₁, hr₁⟩
        · rcases h₂ with h₂ | ⟨he₂, hr₂⟩
          · exact Or.inl (by omega)
          · exact Or.inl (by omega)
        · rcases h₂ with h₂ | ⟨he₂, hr₂⟩
          · exact Or.inl (by omega)
          · exact Or.inr ⟨by omega, ih hr₁ hr₂⟩

theorem charToNat_inj {a b : Char} (h : a.toNat = b.toNat) : a = b :=
  Char.eq_of_val_eq (UInt32.toNat.inj h)

theorem lexLt_total {as bs : List Char} (h₁ : lexLt as bs = false)
    (h₂ : lexLt bs as = false) : as = bs := by
  induction as generalizing bs with
  | nil =>
    cases bs with
    | nil => rfl
    | cons b bs => exact absurd h₁ (by simp [lexLt])
  | cons a as ih =>
    cases bs with
    | nil => exact absurd h₂ (by simp [lexLt])
    | cons b bs =>
      rw [lexLt_cons_false] at h₁ h₂
      rcases h₁ with h₁ | ⟨he₁, hr₁⟩
      · rcases h₂ with h₂ | ⟨he₂, hr₂⟩
        · omega
        · omega
      · rcases h₂ with h₂ | ⟨he₂, hr₂⟩
        · omega
        · have hab : a = b := charToNat_inj he₁
          rw [hab, ih hr₁ hr₂]

theorem strLt_irrefl (a : String) : strLt a a = false := lexLt_irrefl _

theorem strLt_trans {a b c : String} (h₁ : strLt a b = true) (h₂ : strLt b c = true) :
    strLt a c = true := lexLt_trans h₁ h₂

theorem strLt_total {a b : String} (h₁ : strLt a b = false) (h₂ : strLt b a = false) :
    a = b := by
  have h := lexLt_total h₁ h₂
  cases a; cases b
  exact congrArg String.mk h

theorem qLt_irrefl (a : Nat) : qLt a a = false := by simp [qLt]

theorem qLt_trans {a b c : Nat} (h₁ : qLt a b = true) (h₂ : qLt b c = true) :
    qLt a c = true := by
  simp only [qLt, decide_eq_true_eq] at h₁ h₂ ⊢
  omega

theorem qLt_total {a b : Nat} (h₁ : qLt a b = false) (h₂ : qLt b a = false) :
    a = b := by
  simp only [qLt, decide_eq_false_iff_not] at h₁ h₂
  omega

theorem qLt_iff {a b : Nat} : qLt a b = true ↔ a < b := by
  simp [qLt]

theorem lt_asymm_of (lt : α → α → Bool) (hirr : ∀ a, lt a a = false)
    (htrans : ∀ {a b c}, lt a b = true → lt b c = true → lt a c = true)
    {a b : α} (h : lt a b = true) : lt b a = false := by
  by_cases hba : lt b a = true
  · have h2 := htrans h hba
    rw [hirr] at h2
    exact absurd h2 (by simp)
  · simp only [Bool.not_eq_true] at hba
    exact hba

/-! ### Lemmas about `insUnique`, `sortedUnique`, `insAsc`, `sortAsc` -/

theorem mem_insUnique (lt : α → α → Bool) [DecidableEq α] (a x : α) (l : List α) :
    x ∈ insUnique lt a l ↔ x = a ∨ x ∈ l := by
  induction l with
  | nil => simp [insUnique]
  | cons b l ih =>
    simp only [insUnique]
    split_ifs with h1 h2
    · simp [List.mem_cons]
    · subst h2
      simp only [List.mem_cons]
      tauto
    · simp only [List.mem_cons, ih]
      tauto

theorem pairwise_insUnique (lt : α → α → Bool) [DecidableEq α]
    (htrans : ∀ {a b c}, lt a b = true → lt b c = true → lt a c = true)
    (htotal : ∀ {a b}, lt a b = false → lt b a = false → a = b)
    (a : α) {l : List α} (h : l.Pairwise (fun x y => lt x y = true)) :
    (insUnique lt a l).Pairwise (fun x y => lt x y = true) := by
  induction l with
  | nil => simp [insUnique]
  | cons b l ih =>
    rcases List.pairwise_cons.mp h with ⟨hb, hl⟩
    simp only [insUnique]
    split_ifs with h1 h2
    · refine List.Pairwise.cons ?_ h
      intro y hy
      rcases List.mem_cons.mp hy with rfl | hyl
      · exact h1
      · exact htrans h1 (hb y hyl)
    · exact h
    · refine List.Pairwise.cons ?_ (ih hl)
      intro y hy
      rcases (mem_insUnique lt a y l).mp hy with rfl | hyl
      · simp only [Bool.not_eq_true] at h1
        cases hba : lt b y with
        | true => rfl
        | false => exact absurd (htotal h1 hba) h2
      · exact hb y hyl

theorem mem_sortedUnique (lt : α → α → Bool) [DecidableEq α] (x : α) (l : List α) :
    x ∈ sortedUnique lt l ↔ x ∈ l := by
  induction l with
  | nil => simp [sortedUnique]
  | cons a l ih =>
    simp only [sortedUnique, List.foldr_cons] at ih ⊢
    rw [mem_insUnique, ih, List.mem_cons]

theorem pairwise_sortedUnique (lt : α → α → Bool) [DecidableEq α]
    (htrans : ∀ {a b c}, lt a b = true → lt b c = true → lt a c = true)
    (htotal : ∀ {a b}, lt a b = false → lt b a = false → a = b)
    (l : List α) : (sortedUnique lt l).Pairwise (fun x y => lt x y = true) := by
  induction l with
  | nil => simp [sortedUnique]
  | cons a l ih =>
    simp only [sortedUnique, List.foldr_cons] at ih ⊢
    exact pairwise_insUnique lt @htrans @htotal a ih

theorem nodup_sortedUnique (lt : α → α → Bool) [DecidableEq α]
    (hirr : ∀ a, lt a a = false)
    (htrans : ∀ {a b c}, lt a b = true → lt b c = true → lt a c = true)
    (htotal : ∀ {a b}, lt a b = false → lt b a = false → a = b)
    (l : List α) : (sortedUnique lt l).Nodup := by
  refine (pairwise_sortedUnique lt @htrans @htotal l).imp ?_
  intro a b hab heq
  subst heq
  rw [hirr] at hab
  exact absurd hab (by simp)

/-- Two strictly sorted lists with the same members are equal. -/
theorem eq_of_pairwise_mem (lt : α → α → Bool)
    (hirr : ∀ a, lt a a = false)
    (htrans : ∀ {a b c}, lt a b = true → lt b c = true → lt a c = true)
    {l₁ l₂ : List α} (h₁ : l₁.Pairwise (fun x y => lt x y = true))
    (h₂ : l₂.Pairwise (fun x y => lt x y = true))
    (hmem : ∀ x, x ∈ l₁ ↔ x ∈ l₂) : l₁ = l₂ := by
  induction l₁ generalizing l₂ with
  | nil =>
    cases l₂ with
    | nil => rfl
    | cons b l₂ => exact absurd ((hmem b).mpr (List.mem_cons_self b l₂)) (List.not_mem_nil b)
  | cons a l₁ ih =>
    cases l₂ with
    | nil => exact absurd ((hmem a).mp (List.mem_cons_self a l₁)) (List.not_mem_nil a)
    | cons b l₂ =>
      rcases List.pairwise_cons.mp h₁ with ⟨ha, hl₁⟩
      rcases List.pairwise_cons.mp h₂ with ⟨hb, hl₂⟩
      have hab : a = b := by
        rcases List.mem_cons.mp ((hmem a).mp (List.mem_cons_self a l₁)) with h | h
        · exact h
        · rcases List.mem_cons.mp ((hmem b).mpr (List.mem_cons_self b l₂)) with h' | h'
          · exact h'.symm
          · have hba := hb a h
            have hab := ha b h'
            have := htrans hab hba
            rw [hirr] at this
            exact absurd this (by simp)
      subst hab
      have hmem' : ∀ x, x ∈ l₁ ↔ x ∈ l₂ := by
        intro x
        constructor
        · intro hx
          rcases List.mem_cons.mp ((hmem x).mp (List.mem_cons_of_mem a hx)) with h | h
          · subst h
            have := ha x hx
            rw [hirr] at this
            exact absurd this (by simp)
          · exact h
        · intro hx
          rcases List.mem_cons.mp ((hmem x).mpr (List.mem_cons_of_mem a hx)) with h | h
          · subst h
            have := hb x hx
            rw [hirr] at this
            exact absurd this (by simp)
          · exact h
      rw [ih hl₁ hl₂ hmem']

/-- Permuting the input does not change `sortedUnique`. -/
theorem sortedUnique_perm_congr (lt : α → α → Bool) [DecidableEq α]
    (hirr : ∀ a, lt a a = false)
    (htrans : ∀ {a b c}, lt a b = true → lt b c = true → lt a c = true)
    (htotal : ∀ {a b}, lt a b = false → lt b a = false → a = b)
    {l₁ l₂ : List α} (h : l₁.Perm l₂) :
    sortedUnique lt l₁ = sortedUnique lt l₂ := by
  refine eq_of_pairwise_mem lt hirr @htrans
    (pairwise_sortedUnique lt @htrans @htotal l₁)
    (pairwise_sortedUnique lt @htrans @htotal l₂) ?_
  intro x
  rw [mem_sortedUnique, mem_sortedUnique]
  exact ⟨fun hx => h.mem_iff.mp hx, fun hx => h.mem_iff.mpr hx⟩

theorem mem_insAsc (lt : α → α → Bool) [DecidableEq α] (a x : α) (l : List α) :
    x ∈ insAsc lt a l ↔ x = a ∨ x ∈ l := by
  induction l with
  | nil => simp [insAsc]
  | cons b l ih =>
    simp only [insAsc]
    split_ifs with h1
    · simp only [List.mem_cons, ih]
      tauto
    · simp [List.mem_cons]

theorem length_insAsc (lt : α → α → Bool) [DecidableEq α] (a : α) (l : List α) :
    (insAsc lt a l).length = l.length + 1 := by
  induction l with
  | nil => simp [insAsc]
  | cons b l ih =>
    simp only [insAsc]
    split_ifs with h1
    · simp [ih]
    · simp

theorem mem_sortAsc (lt : α → α → Bool) [DecidableEq α] (x : α) (l : List α) :
    x ∈ sortAsc lt l ↔ x ∈ l := by
  induction l with
  | nil => simp [sortAsc]
  | cons a l ih =>
    simp only [sortAsc, List.foldr_cons] at ih ⊢
    rw [mem_insAsc, ih, List.mem_cons]

theorem length_sortAsc (lt : α → α → Bool) [DecidableEq α] (l : List α) :
    (sortAsc lt l).length = l.length := by
  induction l with
  | nil => rfl
  | cons a l ih =>
    simp only [sortAsc, List.foldr_cons] at ih ⊢
    rw [length_insAsc, ih, List.length_cons]

theorem pairwise_insAsc (lt : α → α → Bool) [DecidableEq α]
    (hirr : ∀ a, lt a a = false)
    (htrans : ∀ {a b c}, lt a b = true → lt b c = true → lt a c = true)
    (htotal : ∀ {a b}, lt a b = false → lt b a = false → a = b)
    (a : α) {l : List α} (h : l.Pairwise (fun x y => lt y x = false)) :
    (insAsc lt a l).Pairwise (fun x y => lt y x = false) := by
  induction l with
  | nil => simp [insAsc]
  | cons b l ih =>
    rcases List.pairwise_cons.mp h with ⟨hb, hl⟩
    simp only [insAsc]
    split_ifs with h1
    · refine List.Pairwise.cons ?_ (ih hl)
      intro y hy
      rcases (mem_insAsc lt a y l).mp hy with rfl | hyl
      · exact lt_asymm_of lt hirr @htrans h1
      · exact hb y hyl
    · refine List.Pairwise.cons ?_ h
      intro y hy
      simp only [Bool.not_eq_true] at h1
      rcases List.mem_cons.mp hy with rfl | hyl
      · exact h1
      · cases hya : lt y a with
        | false => rfl
        | true =>
          have hby := hb y hyl
          cases hab : lt a b with
          | true =>
            have := htrans hya hab
            rw [hby] at this
            exact absurd this (by simp)
          | false =>
            have hab' : a = b := htotal hab h1
            subst hab'
            rw [hby] at hya
            exact absurd hya (by simp)

theorem pairwise_sortAsc (lt : α → α → Bool) [DecidableEq α]
    (hirr : ∀ a, lt a a = false)
    (htrans : ∀ {a b c}, lt a b = true → lt b c = true → lt a c = true)
    (htotal : ∀ {a b}, lt a b = false → lt b a = false → a = b)
    (l : List α) : (sortAsc lt l).Pairwise (fun x y => lt y x = false) := by
  induction l with
  | nil => simp [sortAsc]
  | cons a l ih =>
    simp only [sortAsc, List.foldr_cons] at ih ⊢
    exact pairwise_insAsc lt hirr @htrans @htotal a ih

/-! ### Lemmas about `attachPrev` -/

theorem attachPrev_map_fst (l : List α) : (attachPrev l).map Prod.fst = l := by
  cases l with
  | nil => rfl
  | cons a l =>
    simp only [attachPrev, List.map_cons, List.cons.injEq, true_and]
    induction l generalizing a with
    | nil => rfl
    | cons b l ih => simp only [attachPrevAux, List.map_cons, List.cons.injEq, true_and, ih]

theorem mem_of_mem_attachPrev {l : List α} {x : α} {px : Option α}
    (h : (x, px) ∈ attachPrev l) : x ∈ l := by
  have := List.mem_map_of_mem Prod.fst h
  rwa [attachPrev_map_fst] at this

/-- In `attachPrevAux prev l`, with `prev :: l` strictly ascending, every pair gets
`some` of its immediate predecessor inside `prev :: l`. -/
theorem attachPrevAux_spec {l : List Nat} {prev : Nat}
    (hp : (prev :: l).Pairwise (· < ·)) {x : Nat} {px : Option Nat}
    (h : (x, px) ∈ attachPrevAux prev l) :
    ∃ p, px = some p ∧ p ∈ prev :: l ∧ p < x ∧
      ∀ y ∈ prev :: l, y < x → y ≤ p := by
  induction l generalizing prev with
  | nil => exact absurd h (List.not_mem_nil _)
  | cons b l ih =>
    rcases List.pairwise_cons.mp hp with ⟨hprev, hbl⟩
    rcases List.mem_cons.mp h with h | h
    · injection h with hx hpx
      subst hx
      subst hpx
      refine ⟨prev, rfl, List.mem_cons_self _ _, hprev x (List.mem_cons_self _ _), ?_⟩
      have hxl := (List.pairwise_cons.mp hbl).1
      have hpx' := hprev x (List.mem_cons_self _ _)
      intro y hy hyb
      rcases List.mem_cons.mp hy with rfl | hy
      · exact le_refl y
      · rcases List.mem_cons.mp hy with rfl | hy
        · omega
        · have := hxl y hy
          omega
    · obtain ⟨p, hpx, hpmem, hplt, hbound⟩ := ih hbl h
      refine ⟨p, hpx, List.mem_cons_of_mem _ hpmem, hplt, ?_⟩
      intro y hy hyx
      rcases List.mem_cons.mp hy with rfl | hy
      · have h1 : y < b := hprev b (List.mem_cons_self _ _)
        have h2 : b ≤ p := by
          rcases List.mem_cons.mp hpmem with rfl | hp'
          · exact le_refl p
          · have := (List.pairwise_cons.mp hbl).1 p hp'
            omega
        omega
      · exact hbound y hy hyx

/-- A pair of `attachPrev` carrying `some p` names the immediate predecessor of its
first component inside the (strictly ascending) list. -/
theorem attachPrev_some {l : List Nat} (hp : l.Pairwise (· < ·)) {x p : Nat}
    (h : (x, some p) ∈ attachPrev l) :
    p ∈ l ∧ p < x ∧ ∀ y ∈ l, y < x → y ≤ p := by
  cases l with
  | nil => exact absurd h (List.not_mem_nil _)
  | cons a l =>
    rcases List.mem_cons.mp h with h | h
    · exact absurd (congrArg Prod.snd h) (by simp)
    · obtain ⟨q, hq, hqmem, hqlt, hbound⟩ := attachPrevAux_spec hp h
      obtain rfl : q = p := by injection hq.symm
      exact ⟨hqmem, hqlt, hbound⟩

/-- A pair of `attachPrev` carrying `none` is the head: no list element is smaller
than its first component. -/
theorem attachPrev_none {l : List Nat} (hp : l.Pairwise (· < ·)) {x : Nat}
    (h : (x, none) ∈ attachPrev l) : ∀ y ∈ l, ¬ y < x := by
  cases l with
  | nil => exact absurd h (List.not_mem_nil _)
  | cons a l =>
    rcases List.mem_cons.mp h with h | h
    · injection h with hx hpx
      subst hx
      intro y hy
      rcases List.mem_cons.mp hy with rfl | hy
      · omega
      · have := (List.pairwise_cons.mp hp).1 y hy
        omega
    · obtain ⟨q, hq, _, _, _⟩ := attachPrevAux_spec hp h
      exact absurd hq (by simp)

/-- Every list element appears as the first component of an `attachPrev` pair. -/
theorem exists_mem_attachPrev {l : List α} {x : α} (h : x ∈ l) :
    ∃ px, (x, px) ∈ attachPrev l := by
  have hm : x ∈ (attachPrev l).map Prod.fst := by
    rw [attachPrev_map_fst]
    exact h
  rcases List.mem_map.mp hm with ⟨⟨y, py⟩, hmem, hy⟩
  exact ⟨py, by simpa [← hy] using hmem⟩

/-! ### The last-two window and descending prefixes -/

/-- Short lists: with at most two entries, at most one entry exceeds a member. -/
theorem filter_gt_le_one_of_short {u : List Nat} (h2 : u.length ≤ 2) {x : Nat}
    (hx : x ∈ u) : (u.filter (fun y => decide (x < y))).length ≤ 1 := by
  have hlt : (u.filter (fun y => decide (x < y))).length < u.length :=
    List.length_filter_lt_length_iff_exists.mpr ⟨x, hx, by simp⟩
  omega

/-- Dropping the head cannot lengthen a filter. -/
theorem length_filter_le_cons (p : Nat → Bool) (a : Nat) (t : List Nat) :
    (t.filter p).length ≤ ((a :: t).filter p).length := by
  rw [List.filter_cons]
  split_ifs
  · simp
  · exact le_refl _

/-- Membership in the last two entries of a strictly ascending list is membership
with at most one strictly greater entry. -/
theorem mem_drop_length_sub_two {u : List Nat} (hu : u.Pairwise (· < ·)) (x : Nat) :
    x ∈ u.drop (u.length - 2) ↔
      x ∈ u ∧ (u.filter (fun y => decide (x < y))).length ≤ 1 := by
  induction u with
  | nil => simp
  | cons a t ih =>
    rcases List.pairwise_cons.mp hu with ⟨ha, ht⟩
    cases t with
    | nil =>
      constructor
      · intro h
        exact ⟨by simpa using h, filter_gt_le_one_of_short (by simp) (by simpa using h)⟩
      · intro ⟨h, _⟩
        simpa using h
    | cons b t2 =>
      cases t2 with
      | nil =>
        constructor
        · intro h
          exact ⟨by simpa using h, filter_gt_le_one_of_short (by simp) (by simpa using h)⟩
        · intro ⟨h, _⟩
          simpa using h
      | cons c t3 =>
        have hlen : (a :: b :: c :: t3).length - 2 = (b :: c :: t3).length - 2 + 1 := by
          simp only [List.length_cons]
          omega
        rw [hlen, List.drop_succ_cons, ih ht]
        constructor
        · intro ⟨hxt, hflt⟩
          refine ⟨List.mem_cons_of_mem a hxt, ?_⟩
          have hax : a < x := ha x hxt
          have heq : List.filter (fun y => decide (x < y)) (a :: b :: c :: t3) =
              List.filter (fun y => decide (x < y)) (b :: c :: t3) := by
            rw [List.filter_cons, if_neg (by simp; omega)]
          rw [heq]
          exact hflt
        · intro ⟨hxu, hflt⟩
          rcases List.mem_cons.mp hxu with rfl | hxt
          · exfalso
            have hall : List.filter (fun y => decide (x < y)) (b :: c :: t3) =
                b :: c :: t3 := by
              apply List.filter_eq_self.mpr
              intro y hy
              simpa using ha y hy
            have h2 : 2 ≤ (List.filter (fun y => decide (x < y))
                (x :: b :: c :: t3)).length := by
              have := length_filter_le_cons (fun y => decide (x < y)) x (b :: c :: t3)
              rw [hall] at this
              simp only [List.length_cons] at this
              omega
            omega
          · exact ⟨hxt, le_trans (length_filter_le_cons _ a _) hflt⟩

/-- In a strictly descending list, anything larger than a member of a prefix is in
that prefix. -/
theorem mem_take_of_gt {f : List Nat} (hf : f.Pairwise (fun a b => b < a))
    {x y : Nat} (n : Nat) (hx : x ∈ f) (hy : y ∈ f.take n) (hxy : y < x) :
    x ∈ f.take n := by
  by_contra hxt
  have hxd : x ∈ f.drop n := by
    rw [← List.take_append_drop n f] at hx
    rcases List.mem_append.mp hx with h | h
    · exact absurd h hxt
    · exact h
  have hpw : (f.take n ++ f.drop n).Pairwise (fun a b => b < a) := by
    rw [List.take_append_drop]
    exact hf
  have := (List.pairwise_append.mp hpw).2.2 y hy x hxd
  omega

/-! ### The quarter-selection loop -/

theorem foldl_selStep_of_full {r acc : List Nat} (h : 4 ≤ acc.length) :
    r.foldl selStep acc = acc := by
  induction r generalizing acc with
  | nil => rfl
  | cons q r ih =>
    have hq : selStep acc q = acc := by
      have : decide (acc.length < 4) = false := by
        simp only [decide_eq_false_iff_not]
        omega
      simp [selStep, this]
    rw [List.foldl_cons, hq, ih h]

theorem foldl_selStep_closed {r : List Nat} (acc : List Nat) (hnd : r.Nodup) :
    r.foldl selStep acc =
      acc ++ (r.filter (fun q => !(acc.contains q))).take (4 - acc.length) := by
  induction r generalizing acc with
  | nil => simp
  | cons q r ih =>
    rcases List.nodup_cons.mp hnd with ⟨hqr, hnd'⟩
    by_cases hc : acc.contains q = true
    · have hcm : q ∈ acc := List.mem_of_elem_eq_true hc
      have hstep : selStep acc q = acc := by simp [selStep, hcm]
      rw [List.foldl_cons, hstep, ih acc hnd', List.filter_cons, if_neg (by simp [hcm])]
    · have hcm : q ∉ acc := fun hm => hc (List.elem_eq_true_of_mem hm)
      by_cases hl : acc.length < 4
      · have hstep : selStep acc q = acc ++ [q] := by simp [selStep, hcm, hl]
        rw [List.foldl_cons, hstep, ih (acc ++ [q]) hnd']
        have hfe : r.filter (fun x => !((acc ++ [q]).contains x)) =
            r.filter (fun x => !(acc.contains x)) := by
          apply List.filter_congr
          intro x hx
          have hxq : x ≠ q := fun hxe => hqr (hxe ▸ hx)
          simp [List.mem_append, hxq]
        have hlen : 4 - (acc ++ [q]).length = 4 - acc.length - 1 := by
          simp only [List.length_append, List.length_cons, List.length_nil]
          omega
        rw [hfe, hlen, List.filter_cons, if_pos (by simp [hcm])]
        nth_rewrite 2 [show 4 - acc.length = (4 - acc.length - 1) + 1 from by omega]
        rw [List.take_succ_cons, List.append_assoc]
        rfl
      · have hstep : selStep acc q = acc := by
          have : decide (acc.length < 4) = false := by
            simp only [decide_eq_false_iff_not]
            omega
          simp [selStep, this]
        rw [List.foldl_cons, hstep, foldl_selStep_of_full (by omega)]
        have : 4 - acc.length = 0 := by omega
        rw [this]
        simp

/-- Closed form of the quarter selection: the anchor "2024Q1" plus the three most
recent other quarters, sorted ascending. -/
theorem select_target_quarters_eq (qs : List Nat) :
    select_target_quarters qs =
      sortAsc qLt (q2024Q1 ::
        (((sortedUnique qLt qs).reverse.filter
          (fun q => !([q2024Q1].contains q))).take 3)) := by
  have hnd : ((sortedUnique qLt qs).reverse).Nodup :=
    List.nodup_reverse.mpr (nodup_sortedUnique qLt qLt_irrefl @qLt_trans @qLt_total qs)
  simp only [select_target_quarters]
  rw [foldl_selStep_closed [q2024Q1] hnd]
  rfl

theorem mem_select_target_quarters {qs : List Nat} {q : Nat} :
    q ∈ select_target_quarters qs ↔
      q = q2024Q1 ∨
        q ∈ ((sortedUnique qLt qs).reverse.filter
          (fun x => !([q2024Q1].contains x))).take 3 := by
  rw [select_target_quarters_eq, mem_sortAsc, List.mem_cons]

/-- The descending duplicate-free list of quarters present. -/
theorem pairwise_recent (qs : List Nat) :
    ((sortedUnique qLt qs).reverse).Pairwise (fun a b => b < a) := by
  rw [List.pairwise_reverse]
  exact ((pairwise_sortedUnique qLt @qLt_trans @qLt_total qs).imp (fun h => qLt_iff.mp h))

/-! ### Selection properties (claim C5 groundwork) -/

theorem select_length_le (qs : List Nat) : (select_target_quarters qs).length ≤ 4 := by
  rw [select_target_quarters_eq, length_sortAsc]
  simp only [List.length_cons]
  have := List.length_take_le 3
    ((sortedUnique qLt qs).reverse.filter (fun q => !([q2024Q1].contains q)))
  omega

theorem anchor_mem_select (qs : List Nat) : q2024Q1 ∈ select_target_quarters qs := by
  rw [mem_select_target_quarters]
  left
  rfl

theorem select_sorted (qs : List Nat) :
    (select_target_quarters qs).Pairwise (· ≤ ·) := by
  rw [select_target_quarters_eq]
  refine (pairwise_sortAsc qLt qLt_irrefl @qLt_trans @qLt_total _).imp ?_
  intro a b h
  simp only [qLt, decide_eq_false_iff_not] at h
  omega

theorem select_subset (qs : List Nat) :
    ∀ q ∈ select_target_quarters qs, q = q2024Q1 ∨ q ∈ qs := by
  intro q hq
  rcases mem_select_target_quarters.mp hq with h | h
  · exact Or.inl h
  · right
    have h1 := List.take_subset 3 _ h
    have h2 := List.mem_of_mem_filter h1
    rw [List.mem_reverse] at h2
    exact (mem_sortedUnique qLt q qs).mp h2

theorem select_most_recent {qs : List Nat} :
    ∀ q ∈ qs, ∀ q' ∈ select_target_quarters qs, q' ≠ q2024Q1 → q' < q →
      q ∈ select_target_quarters qs := by
  intro q hq q' hq' hne hlt
  rcases mem_select_target_quarters.mp hq' with h | h
  · exact absurd h hne
  · by_cases hq1 : q = q2024Q1
    · rw [hq1]
      exact anchor_mem_select qs
    · rw [mem_select_target_quarters]
      right
      have hqf : q ∈ (sortedUnique qLt qs).reverse.filter
          (fun x => !([q2024Q1].contains x)) := by
        apply List.mem_filter.mpr
        refine ⟨?_, by simp [hq1]⟩
        rw [List.mem_reverse]
        exact (mem_sortedUnique qLt q qs).mpr hq
      have hdesc := (pairwise_recent qs).filter (fun x => !([q2024Q1].contains x))
      exact mem_take_of_gt hdesc 3 hqf h hlt

/-! ### Aggregation group keys (claims C4 and C6 groundwork) -/

theorem pairwise_quartersOf (rows : List NormRow) (i : String) :
    (quartersOf rows i).Pairwise (· < ·) :=
  (pairwise_sortedUnique qLt @qLt_trans @qLt_total _).imp (fun h => qLt_iff.mp h)

theorem mem_quartersOf {rows : List NormRow} {i : String} {q : Nat} :
    q ∈ quartersOf rows i ↔ ∃ r ∈ rows, r.name_of_issuer = i ∧ r.quarter = q := by
  unfold quartersOf
  rw [mem_sortedUnique]
  simp only [List.mem_map, List.mem_filter, beq_iff_eq]
  constructor
  · rintro ⟨r, ⟨hr, hi⟩, hq⟩
    exact ⟨r, hr, hi, hq⟩
  · rintro ⟨r, hr, hi, hq⟩
    exact ⟨r, ⟨hr, hi⟩, hq⟩

theorem mem_issuersSorted {rows : List NormRow} {i : String} :
    i ∈ issuersSorted rows ↔ ∃ r ∈ rows, r.name_of_issuer = i := by
  unfold issuersSorted
  rw [mem_sortedUnique]
  simp only [List.mem_map]

theorem mem_groupKeys {rows : List NormRow} {i : String} {q : Nat} {p : Option Nat}
    (hk : (i, q, p) ∈ groupKeys rows) :
    (q, p) ∈ attachPrev (quartersOf rows i) := by
  unfold groupKeys at hk
  rcases List.mem_flatMap.mp hk with ⟨i', _, hmem⟩
  rcases List.mem_map.mp hmem with ⟨qp, hqp, heq⟩
  cases qp with
  | mk q' p' =>
    injection heq with h1 h2
    injection h2 with h2 h3
    subst h1
    subst h2
    subst h3
    exact hqp

theorem groupKeys_quarter_mem {rows : List NormRow} {i : String} {q : Nat}
    {p : Option Nat} (hk : (i, q, p) ∈ groupKeys rows) :
    q ∈ quartersOf rows i :=
  mem_of_mem_attachPrev (mem_groupKeys hk)

theorem groupKeys_prev_none {rows : List NormRow} {i : String} {q : Nat}
    (hk : (i, q, none) ∈ groupKeys rows) :
    ∀ q' ∈ quartersOf rows i, ¬ q' < q :=
  attachPrev_none (pairwise_quartersOf rows i) (mem_groupKeys hk)

theorem groupKeys_prev_some {rows : List NormRow} {i : String} {q p : Nat}
    (hk : (i, q, some p) ∈ groupKeys rows) :
    p ∈ quartersOf rows i ∧ p < q ∧ ∀ q' ∈ quartersOf rows i, q' < q → q' ≤ p :=
  attachPrev_some (pairwise_quartersOf rows i) (mem_groupKeys hk)

theorem exists_groupKeys {rows : List NormRow} {r : NormRow} (hr : r ∈ rows) :
    ∃ p, (r.name_of_issuer, r.quarter, p) ∈ groupKeys rows := by
  have hi : r.name_of_issuer ∈ issuersSorted rows :=
    mem_issuersSorted.mpr ⟨r, hr, rfl⟩
  have hq : r.quarter ∈ quartersOf rows r.name_of_issuer :=
    mem_quartersOf.mpr ⟨r, hr, rfl, rfl⟩
  rcases exists_mem_attachPrev hq with ⟨p, hp⟩
  refine ⟨p, ?_⟩
  unfold groupKeys
  apply List.mem_flatMap.mpr
  exact ⟨r.name_of_issuer, hi, List.mem_map.mpr ⟨(r.quarter, p), hp, rfl⟩⟩

/-- The quarters occurring among the group keys are exactly the quarters of the
rows. -/
theorem groupKeys_quarters_set {rows : List NormRow} {q : Nat} :
    (∃ k ∈ groupKeys rows, k.2.1 = q) ↔ ∃ r ∈ rows, r.quarter = q := by
  constructor
  · rintro ⟨⟨i, q', p⟩, hk, hq⟩
    subst hq
    rcases mem_quartersOf.mp (groupKeys_quarter_mem hk) with ⟨r, hr, _, hq⟩
    exact ⟨r, hr, hq⟩
  · rintro ⟨r, hr, hq⟩
    rcases exists_groupKeys hr with ⟨p, hk⟩
    subst hq
    exact ⟨(r.name_of_issuer, r.quarter, p), hk, rfl⟩

/-! ### The `all_holdings` frame and the status column -/

theorem draftRows_quarters (rows : List NormRow) :
    (draftRows rows).map (·.quarter) = (groupKeys rows).map (fun k => k.2.1) := by
  unfold draftRows
  rw [List.map_map]
  rfl

theorem sortedUnique_draft_quarters (rows : List NormRow) :
    sortedUnique qLt ((draftRows rows).map (·.quarter)) =
      sortedUnique qLt (rows.map (·.quarter)) := by
  apply eq_of_pairwise_mem qLt qLt_irrefl @qLt_trans
    (pairwise_sortedUnique qLt @qLt_trans @qLt_total _)
    (pairwise_sortedUnique qLt @qLt_trans @qLt_total _)
  intro x
  rw [mem_sortedUnique, mem_sortedUnique, draftRows_quarters]
  simp only [List.mem_map]
  constructor
  · rintro ⟨k, hk, he⟩
    rcases groupKeys_quarters_set.mp ⟨k, hk, he⟩ with ⟨r, hr, hq⟩
    exact ⟨r, hr, hq⟩
  · rintro ⟨r, hr, hq⟩
    rcases groupKeys_quarters_set.mpr ⟨r, hr, hq⟩ with ⟨k, hk, he⟩
    exact ⟨k, hk, he⟩

theorem mem_lastTwoQuarters {rows : List NormRow} {q : Nat} :
    q ∈ lastTwoQuarters rows ↔
      q ∈ rows.map (·.quarter) ∧
        ((sortedUnique qLt (rows.map (·.quarter))).filter
          (fun y => decide (q < y))).length ≤ 1 := by
  have hpw : (sortedUnique qLt (rows.map (·.quarter))).Pairwise (· < ·) :=
    (pairwise_sortedUnique qLt @qLt_trans @qLt_total _).imp (fun h => qLt_iff.mp h)
  simp only [lastTwoQuarters]
  rw [sortedUnique_draft_quarters, mem_drop_length_sub_two hpw, mem_sortedUnique]

theorem mem_all_holdings {rows : List NormRow} {a : AggRow}
    (ha : a ∈ all_holdings rows) :
    ∃ k ∈ groupKeys rows, a = applyStatus rows (aggDraftRow rows k) := by
  unfold all_holdings draftRows at ha
  rw [List.map_map] at ha
  rcases List.mem_map.mp ha with ⟨k, hk, he⟩
  exact ⟨k, hk, he.symm⟩

/-- The "New Position" flag of an `all_holdings` row holds exactly when the issuer
has no strictly earlier selected quarter and the row's quarter is one of the (at
most) two largest distinct quarters of the data. -/
theorem status_new_position_iff {rows : List NormRow} {a : AggRow}
    (ha : a ∈ all_holdings rows) :
    a.status = "New Position" ↔
      (¬ ∃ r ∈ rows, r.name_of_issuer = a.name_of_issuer ∧ r.quarter < a.quarter) ∧
      a.quarter ∈ rows.map (·.quarter) ∧
      ((sortedUnique qLt (rows.map (·.quarter))).filter
        (fun y => decide (a.quarter < y))).length ≤ 1 := by
  rcases mem_all_holdings ha with ⟨⟨i, q, p⟩, hk, rfl⟩
  have hproj : (applyStatus rows (aggDraftRow rows (i, q, p))).name_of_issuer = i := rfl
  have hprojq : (applyStatus rows (aggDraftRow rows (i, q, p))).quarter = q := rfl
  rw [hproj, hprojq]
  have hA : p = none ↔ ¬ ∃ r ∈ rows, r.name_of_issuer = i ∧ r.quarter < q := by
    constructor
    · rintro rfl ⟨r, hr, hi, hlt⟩
      exact groupKeys_prev_none hk r.quarter (mem_quartersOf.mpr ⟨r, hr, hi, rfl⟩) hlt
    · intro hno
      cases p with
      | none => rfl
      | some pq =>
        rcases groupKeys_prev_some hk with ⟨hpmem, hplt, _⟩
        rcases mem_quartersOf.mp hpmem with ⟨r, hr, hi, hqr⟩
        exact absurd ⟨r, hr, hi, hqr ▸ hplt⟩ hno
  show (applyStatus rows (aggDraftRow rows (i, q, p))).status = "New Position" ↔ _
  cases p with
  | none =>
    have hst : (applyStatus rows (aggDraftRow rows (i, q, none))).status =
        if (lastTwoQuarters rows).contains q then "New Position" else "" := by
      simp [applyStatus, aggDraftRow]
    rw [hst]
    split_ifs with hc
    · refine iff_of_true rfl ?_
      refine ⟨hA.mp rfl, ?_⟩
      exact mem_lastTwoQuarters.mp (List.mem_of_elem_eq_true hc)
    · refine iff_of_false (by decide) ?_
      rintro ⟨_, hq1, hq2⟩
      exact hc (List.elem_eq_true_of_mem (mem_lastTwoQuarters.mpr ⟨hq1, hq2⟩))
  | some pq =>
    have hst : (applyStatus rows (aggDraftRow rows (i, q, some pq))).status = "" := by
      simp [applyStatus, aggDraftRow]
    rw [hst]
    refine iff_of_false (by decide) ?_
    rintro ⟨hno, _, _⟩
    rcases groupKeys_prev_some hk with ⟨hpmem, hplt, _⟩
    rcases mem_quartersOf.mp hpmem with ⟨r, hr, hi, hqr⟩
    exact hno ⟨r, hr, hi, hqr ▸ hplt⟩

/-! ### Delta semantics of the two views (claim C6 groundwork) -/

/-- For a group key carrying `some pq`, `pq` is the issuer's chronologically
immediately preceding quarter present in the data. -/
theorem prev_quarter_spec {rows : List NormRow} {i : String} {q pq : Nat}
    (hk : (i, q, some pq) ∈ groupKeys rows) :
    pq < q ∧ (∃ r ∈ rows, r.name_of_issuer = i ∧ r.quarter = pq) ∧
      (∀ q'', (∃ r ∈ rows, r.name_of_issuer = i ∧ r.quarter = q'') → q'' < q →
        q'' ≤ pq) := by
  rcases groupKeys_prev_some hk with ⟨hm, hlt, hb⟩
  exact ⟨hlt, mem_quartersOf.mp hm,
    fun q'' hex hlt' => hb q'' (mem_quartersOf.mpr hex) hlt'⟩

theorem mem_changes {rows : List NormRow} {c : ChangeRow} (hc : c ∈ changes rows) :
    ∃ k ∈ groupKeys rows, c = changeRow rows k := by
  rcases List.mem_map.mp hc with ⟨k, hk, he⟩
  exact ⟨k, hk, he.symm⟩

/-- The `changes` view deltas are absolute values, hence nonnegative. -/
theorem changes_nonneg {rows : List NormRow} {c : ChangeRow} (hc : c ∈ changes rows) :
    0 ≤ c.value_change ∧ 0 ≤ c.sshprnamt_change := by
  rcases mem_changes hc with ⟨k, _, rfl⟩
  exact ⟨abs_nonneg _, abs_nonneg _⟩

/-- Null propagation in the `all_holdings` view: the signed deltas are null exactly
when the previous-quarter aggregate is, which happens exactly when the issuer has no
strictly earlier quarter in the data. -/
theorem all_holdings_none_iff {rows : List NormRow} {a : AggRow}
    (ha : a ∈ all_holdings rows) :
    (a.value_change = none ↔ a.prev_value = none) ∧
    (a.sshprnamt_change = none ↔ a.prev_value = none) ∧
    (a.prev_sshprnamt = none ↔ a.prev_value = none) ∧
    (a.prev_value = none ↔
      ¬ ∃ r ∈ rows, r.name_of_issuer = a.name_of_issuer ∧ r.quarter < a.quarter) := by
  rcases mem_all_holdings ha with ⟨⟨i, q, p⟩, hk, rfl⟩
  have hA : p = none ↔
      ¬ ∃ r ∈ rows, r.name_of_issuer = i ∧ r.quarter < q := by
    constructor
    · rintro rfl ⟨r, hr, hi, hlt⟩
      exact groupKeys_prev_none hk r.quarter (mem_quartersOf.mpr ⟨r, hr, hi, rfl⟩) hlt
    · intro hno
      cases p with
      | none => rfl
      | some pq =>
        rcases prev_quarter_spec hk with ⟨hplt, ⟨r, hr, hi, hqr⟩, _⟩
        exact absurd ⟨r, hr, hi, hqr ▸ hplt⟩ hno
  cases p with
  | none =>
    refine ⟨by simp [applyStatus, aggDraftRow], by simp [applyStatus, aggDraftRow],
      by simp [applyStatus, aggDraftRow], ?_⟩
    simpa [applyStatus, aggDraftRow] using hA.mp rfl
  | some pq =>
    refine ⟨by simp [applyStatus, aggDraftRow], by simp [applyStatus, aggDraftRow],
      by simp [applyStatus, aggDraftRow], ?_⟩
    simp only [applyStatus, aggDraftRow, Option.map_some']
    constructor
    · intro h
      exact absurd h (by simp)
    · intro hno
      exact absurd (hA.mpr hno) (by simp)

/-- Previous-quarter semantics of the `all_holdings` view: when present, the
previous aggregates are those of the issuer's immediately preceding quarter in the
data, and the signed deltas subtract them from the current aggregates. -/
theorem all_holdings_prev_spec {rows : List NormRow} {a : AggRow}
    (ha : a ∈ all_holdings rows) (hne : a.prev_value ≠ none) :
    ∃ q', q' < a.quarter ∧
      (∃ r ∈ rows, r.name_of_issuer = a.name_of_issuer ∧ r.quarter = q') ∧
      (∀ q'', (∃ r ∈ rows, r.name_of_issuer = a.name_of_issuer ∧ r.quarter = q'') →
        q'' < a.quarter → q'' ≤ q') ∧
      a.prev_value = some (aggValue rows a.name_of_issuer q') ∧
      a.prev_sshprnamt = some (aggSsh rows a.name_of_issuer q') ∧
      a.value_change = some (a.value_fixed - aggValue rows a.name_of_issuer q') ∧
      a.sshprnamt_change = some (a.sshprnamt - aggSsh rows a.name_of_issuer q') := by
  rcases mem_all_holdings ha with ⟨⟨i, q, p⟩, hk, rfl⟩
  cases p with
  | none => exact absurd (by simp [applyStatus, aggDraftRow]) hne
  | some pq =>
    rcases prev_quarter_spec hk with ⟨hplt, hex, hbound⟩
    refine ⟨pq, hplt, hex, hbound, ?_, ?_, ?_, ?_⟩ <;>
      simp [applyStatus, aggDraftRow]

/-- Previous-quarter semantics of the `changes` view: the same immediately
preceding quarter feeds the absolute-valued deltas, with a missing previous
aggregate replaced by 0. -/
theorem changes_prev_spec {rows : List NormRow} {c : ChangeRow}
    (hc : c ∈ changes rows) :
    (c.prev_value = none →
      (¬ ∃ r ∈ rows, r.name_of_issuer = c.name_of_issuer ∧ r.quarter < c.quarter) ∧
      c.value_change = |c.value_fixed| ∧ c.sshprnamt_change = |c.sshprnamt|) ∧
    (∀ pv, c.prev_value = some pv → ∃ q', q' < c.quarter ∧
      (∃ r ∈ rows, r.name_of_issuer = c.name_of_issuer ∧ r.quarter = q') ∧
      (∀ q'', (∃ r ∈ rows, r.name_of_issuer = c.name_of_issuer ∧ r.quarter = q'') →
        q'' < c.quarter → q'' ≤ q') ∧
      pv = aggValue rows c.name_of_issuer q' ∧
      c.value_change = |c.value_fixed - aggValue rows c.name_of_issuer q'| ∧
      c.sshprnamt_change = |c.sshprnamt - aggSsh rows c.name_of_issuer q'|) := by
  rcases mem_changes hc with ⟨⟨i, q, p⟩, hk, rfl⟩
  cases p with
  | none =>
    refine ⟨fun _ => ⟨?_, by simp [changeRow], by simp [changeRow]⟩, ?_⟩
    · rintro ⟨r, hr, hi, hlt⟩
      exact groupKeys_prev_none hk r.quarter (mem_quartersOf.mpr ⟨r, hr, hi, rfl⟩) hlt
    · intro pv hpv
      exact absurd hpv (by simp [changeRow])
  | some pq =>
    constructor
    · intro hno
      exact absurd hno (by simp [changeRow])
    · intro pv hpv
      rcases prev_quarter_spec hk with ⟨hplt, hex, hbound⟩
      have hpv' : pv = aggValue rows i pq := by
        simp only [changeRow, Option.map_some'] at hpv
        injection hpv.symm
      refine ⟨pq, hplt, hex, hbound, hpv', ?_, ?_⟩ <;>
        simp [changeRow]

/-! ### Top-holdings ordering (claim C7 groundwork) -/

theorem mem_insDescVal {a x : TopRow} {l : List TopRow} :
    x ∈ insDescVal a l ↔ x = a ∨ x ∈ l := by
  induction l with
  | nil => simp [insDescVal]
  | cons b l ih =>
    simp only [insDescVal]
    split_ifs with h1
    · simp [List.mem_cons]
    · simp only [List.mem_cons, ih]
      tauto

theorem mem_sortDescVal {x : TopRow} {l : List TopRow} :
    x ∈ sortDescVal l ↔ x ∈ l := by
  induction l with
  | nil => simp [sortDescVal]
  | cons a l ih =>
    simp only [sortDescVal]
    rw [mem_insDescVal, ih, List.mem_cons]

theorem pairwise_insDescVal {a : TopRow} {l : List TopRow}
    (hname : ∀ b ∈ l, strLt a.name_of_issuer b.name_of_issuer = true)
    (h : l.Pairwise topOrder) : (insDescVal a l).Pairwise topOrder := by
  induction l with
  | nil => simp [insDescVal]
  | cons b l ih =>
    rcases List.pairwise_cons.mp h with ⟨hb, hl⟩
    simp only [insDescVal]
    split_ifs with h1
    · refine List.Pairwise.cons ?_ h
      intro x hx
      have hxval : x.value_fixed ≤ b.value_fixed := by
        rcases List.mem_cons.mp hx with rfl | hx
        · exact le_refl _
        · rcases hb x hx with h' | ⟨h', _⟩
          · exact le_of_lt h'
          · exact le_of_eq h'.symm
      rcases lt_or_eq_of_le (le_trans hxval h1) with h' | h'
      · exact Or.inl h'
      · exact Or.inr ⟨h'.symm, hname x hx⟩
    · refine List.Pairwise.cons ?_ (ih (fun c hc => hname c (List.mem_cons_of_mem b hc)) hl)
      intro x hx
      rcases mem_insDescVal.mp hx with rfl | hx
      · exact Or.inl (lt_of_not_le h1)
      · exact hb x hx

theorem pairwise_sortDescVal {l : List TopRow}
    (h : l.Pairwise (fun a b => strLt a.name_of_issuer b.name_of_issuer = true)) :
    (sortDescVal l).Pairwise topOrder := by
  induction l with
  | nil => simp [sortDescVal]
  | cons a l ih =>
    rcases List.pairwise_cons.mp h with ⟨ha, hl⟩
    simp only [sortDescVal]
    refine pairwise_insDescVal ?_ (ih hl)
    intro b hb
    exact ha b (mem_sortDescVal.mp hb)

/-- The rows of `latestAggs` are pairwise in strictly ascending issuer order. -/
theorem pairwise_latestAggs (rows : List NormRow) :
    (latestAggs rows).Pairwise
      (fun a b => strLt a.name_of_issuer b.name_of_issuer = true) := by
  unfold latestAggs
  rw [List.pairwise_map]
  exact pairwise_sortedUnique strLt @strLt_trans @strLt_total _

/-- Each row of `latestAggs` carries the per-issuer sums over the latest quarter. -/
theorem latestAggs_fields {rows : List NormRow} {x : TopRow}
    (hx : x ∈ latestAggs rows) :
    x.value_fixed = (((rows.filter (fun r => r.quarter == latestQuarter rows)).filter
        (fun r => r.name_of_issuer == x.name_of_issuer)).map (·.value_fixed)).sum ∧
    x.sshprnamt = (((rows.filter (fun r => r.quarter == latestQuarter rows)).filter
        (fun r => r.name_of_issuer == x.name_of_issuer)).map (·.sshprnamt)).sum := by
  unfold latestAggs at hx
  rcases List.mem_map.mp hx with ⟨i, _, rfl⟩
  exact ⟨rfl, rfl⟩

/-! ### Permutation invariance (claim C8 groundwork) -/

theorem aggValue_perm {rows rows' : List NormRow} (h : rows.Perm rows')
    (i : String) (q : Nat) : aggValue rows i q = aggValue rows' i q := by
  unfold aggValue
  exact ((h.filter _).map _).sum_eq

theorem aggSsh_perm {rows rows' : List NormRow} (h : rows.Perm rows')
    (i : String) (q : Nat) : aggSsh rows i q = aggSsh rows' i q := by
  unfold aggSsh
  exact ((h.filter _).map _).sum_eq

theorem select_perm_congr {qs qs' : List Nat} (h : qs.Perm qs') :
    select_target_quarters qs = select_target_quarters qs' := by
  simp only [select_target_quarters]
  rw [sortedUnique_perm_congr qLt qLt_irrefl @qLt_trans @qLt_total h]

theorem filteredRows_perm {hs hs' : List RawHolding} (h : hs.Perm hs') :
    (filteredRows hs).Perm (filteredRows hs') := by
  simp only [filteredRows]
  have hn : (hs.map normalize).Perm (hs'.map normalize) := h.map _
  rw [select_perm_congr (hn.map (·.quarter))]
  exact hn.filter _

/-! ### Legacy text parser row handling (claims C9 and C3 groundwork) -/

theorem getD_mem : ∀ {l : List α} {n : Nat} {d : α}, n < l.length → l.getD n d ∈ l
  | a :: l, 0, d, _ => List.mem_cons_self a l
  | a :: l, n + 1, d, h =>
    List.mem_cons_of_mem a (getD_mem (Nat.lt_of_succ_lt_succ h))

/-- A non-blank data line with fewer whitespace tokens than headers contributes
nothing to the legacy text parse. -/
theorem parseTextRows_skip_short {hdrs : List String} {a c f : String} {p : PDate}
    {m : String} {l : String} (pre post : List String) (acc : List RawHolding)
    (hnb : wsTokens l ≠ []) (hshort : (wsTokens l).length < hdrs.length) :
    parseTextRows hdrs a c f p m (pre ++ l :: post) acc =
      parseTextRows hdrs a c f p m (pre ++ post) acc := by
  induction pre generalizing acc with
  | nil =>
    simp only [List.nil_append, parseTextRows]
    rw [if_neg (by simpa using hnb), if_neg (by omega)]
  | cons x pre ih =>
    simp only [List.cons_append, parseTextRows]
    split_ifs with hb hlen
    · exact ih acc
    · cases hbuild : buildTextHolding hdrs (wsTokens x) a c f p m with
      | some h => exact ih (acc ++ [h])
      | none => rfl
    · exact ih acc

/-- Counting lemma for the legacy text parser: when no `float` error interrupts the
parse, the output has exactly one holding per non-blank data line with at least as
many whitespace tokens as headers. -/
theorem parseTextRows_count {hdrs : List String} {a c f : String} {p : PDate}
    {m : String} :
    ∀ (lines : List String) (acc out : List RawHolding),
      parseTextRows hdrs a c f p m lines acc = some out →
      out.length = acc.length + (lines.filter
        (fun l => !(wsTokens l).isEmpty &&
          decide (hdrs.length ≤ (wsTokens l).length))).length := by
  intro lines
  induction lines with
  | nil =>
    intro acc out h
    simp only [parseTextRows, Option.some.injEq] at h
    subst h
    simp
  | cons x rest ih =>
    intro acc out h
    simp only [parseTextRows] at h
    by_cases hb : (wsTokens x).isEmpty
    · rw [if_pos hb] at h
      rw [List.filter_cons, if_neg (by simp [hb])]
      exact ih acc out h
    · rw [if_neg hb] at h
      by_cases hlen : hdrs.length ≤ (wsTokens x).length
      · rw [if_pos hlen] at h
        cases hbuild : buildTextHolding hdrs (wsTokens x) a c f p m with
        | none =>
          rw [hbuild] at h
          exact absurd h (by simp)
        | some hld =>
          rw [hbuild] at h
          have hrec := ih (acc ++ [hld]) out h
          rw [List.filter_cons, if_pos (by simp [hb, hlen])]
          simp only [List.length_append, List.length_cons, List.length_nil] at hrec ⊢
          omega
      · rw [if_neg hlen] at h
        rw [List.filter_cons, if_neg (by simp [hb, hlen])]
        exact ih acc out h

/-- Short-line invariance at the `parse_text_info_table` level. -/
theorem parse_text_skip_short {hline sep : String} {a c f : String} {p : PDate}
    {m : String} {l : String} (pre post : List String)
    (hhdr : hasSubstr ("NAME OF ISSUER".toList) (hline.toList.map charUpper) = true)
    (hnb : wsTokens l ≠ []) (hshort : (wsTokens l).length < (wordTokens hline).length) :
    parse_text_info_table (hline :: sep :: (pre ++ l :: post)) a c f p m =
      parse_text_info_table (hline :: sep :: (pre ++ post)) a c f p m := by
  simp only [parse_text_info_table, findHeaderSplit, if_pos hhdr, List.drop_succ_cons,
    List.drop_zero]
  exact parseTextRows_skip_short pre post [] hnb hshort

/-- Counting at the `parse_text_info_table` level. -/
theorem parse_text_count {hline sep : String} {dls : List String} {a c f : String}
    {p : PDate} {m : String} {out : List RawHolding}
    (hhdr : hasSubstr ("NAME OF ISSUER".toList) (hline.toList.map charUpper) = true)
    (h : parse_text_info_table (hline :: sep :: dls) a c f p m = some out) :
    out.length = (dls.filter
      (fun l => !(wsTokens l).isEmpty &&
        decide ((wordTokens hline).length ≤ (wsTokens l).length))).length := by
  simp only [parse_text_info_table, findHeaderSplit, if_pos hhdr, List.drop_succ_cons,
    List.drop_zero] at h
  simpa using parseTextRows_count dls [] out h

/-! ### Structured-markup parser field handling (claim C3 groundwork) -/

/-- The structured-markup parser in closed form: all holdings when every element
carries all four fields, nothing at all otherwise. -/
theorem parse_info_table_xml_eq (tables : List InfoTable) (a c f : String)
    (p : PDate) (m : String) :
    parse_info_table_xml tables a c f p m =
      if tables.all hasAllFields then
        tables.map (fun t =>
          { accession_number := a, cik := c, filing_date := f,
            period_of_report := p, filing_manager_name := m,
            name_of_issuer := t.nameOfIssuer.getD "", cusip := t.cusip.getD "",
            value := (t.value.getD 0) * 1000, sshprnamt := t.sshPrnamt.getD 0 })
      else [] := by
  have key : ∀ (ts : List InfoTable),
      extractXmlAll a c f p m ts =
        if ts.all hasAllFields then
          some (ts.map (fun t =>
            { accession_number := a, cik := c, filing_date := f,
              period_of_report := p, filing_manager_name := m,
              name_of_issuer := t.nameOfIssuer.getD "", cusip := t.cusip.getD "",
              value := (t.value.getD 0) * 1000, sshprnamt := t.sshPrnamt.getD 0 }))
        else none := by
    intro ts
    induction ts with
    | nil => rfl
    | cons t ts ih =>
      rcases t with ⟨n, cu, v, s⟩
      cases n with
      | none => simp [extractXmlAll, extractXmlHolding, hasAllFields]
      | some nv =>
        cases cu with
        | none => simp [extractXmlAll, extractXmlHolding, hasAllFields]
        | some cv =>
          cases v with
          | none => simp [extractXmlAll, extractXmlHolding, hasAllFields]
          | some vv =>
            cases s with
            | none => simp [extractXmlAll, extractXmlHolding, hasAllFields]
            | some sv =>
              simp only [extractXmlAll, extractXmlHolding, List.all_cons,
                hasAllFields, Option.isSome_some, Bool.true_and, ih]
              by_cases hall : ts.all hasAllFields
              · simp [hall, Option.getD]
              · simp [hall]
  unfold parse_info_table_xml
  rw [key tables]
  split_ifs with h
  · rfl
  · rfl

/-! ### Claim theorems -/

/-- C2 counterexample: the unit-correction heuristic is not idempotent as claimed.
At value 2000000 with share count 1 the correction fires again on the corrected
value (2000000 → 2000 → 2), so re-application changes the result. -/
theorem c2_counterexample :
    value_fixed (value_fixed 2000000 1) 1 ≠ value_fixed 2000000 1 := by
  have h1 : value_fixed 2000000 1 = 2000 := by
    rw [value_fixed, if_pos]
    · norm_num
    · right
      norm_num
  have h2 : value_fixed 2000 1 = 2 := by
    rw [value_fixed, if_pos]
    · norm_num
    · right
      norm_num
  rw [h1, h2]
  norm_num

/-- C2 amended: for nonnegative share counts the heuristic is idempotent exactly
when the correction can fire at most once, namely when share count and value are
both zero, or the share count is positive and value ≤ 1000 × share count; outside
that region every re-application divides by a further 1000. -/
theorem c2_amended (v s : ℚ) (hs : 0 ≤ s) :
    value_fixed (value_fixed v s) s = value_fixed v s ↔
      (s = 0 ∧ v = 0) ∨ (0 < s ∧ v ≤ 1000 * s) := by
  rcases eq_or_lt_of_le hs with hs0 | hspos
  · obtain rfl : s = 0 := hs0.symm
    have h1 : value_fixed v 0 = v / 1000 := by
      rw [value_fixed, if_pos (Or.inl rfl)]
    have h2 : value_fixed (v / 1000) 0 = v / 1000 / 1000 := by
      rw [value_fixed, if_pos (Or.inl rfl)]
    rw [h1, h2]
    constructor
    · intro h
      left
      refine ⟨rfl, ?_⟩
      rw [div_div] at h
      have h' := (div_eq_div_iff (by norm_num : (1000 * 1000 : ℚ) ≠ 0)
        (by norm_num : (1000 : ℚ) ≠ 0)).mp h
      linarith
    · rintro (⟨_, rfl⟩ | ⟨hpos, _⟩)
      · norm_num
      · exact absurd hpos (lt_irrefl 0)
  · have hcond : ∀ w : ℚ, (s = 0 ∨ w * 1000 / s > 1000) ↔ s < w := by
      intro w
      constructor
      · rintro (h | h)
        · exact absurd h (ne_of_gt hspos)
        · rw [gt_iff_lt, lt_div_iff hspos] at h
          linarith
      · intro h
        right
        rw [gt_iff_lt, lt_div_iff hspos]
        linarith
    by_cases hvs : v ≤ s
    · have h1 : value_fixed v s = v := by
        rw [value_fixed, if_neg ((not_congr (hcond v)).mpr (not_lt.mpr hvs))]
      rw [h1, h1]
      exact iff_of_true rfl (Or.inr ⟨hspos, by linarith⟩)
    · push_neg at hvs
      have h1 : value_fixed v s = v / 1000 := by
        rw [value_fixed, if_pos ((hcond v).mpr hvs)]
      by_cases hv1000 : v ≤ 1000 * s
      · have hnot : ¬ s < v / 1000 := by
          rw [not_lt, div_le_iff (by norm_num : (0 : ℚ) < 1000)]
          linarith
        have h2 : value_fixed (v / 1000) s = v / 1000 := by
          rw [value_fixed, if_neg ((not_congr (hcond (v / 1000))).mpr hnot)]
        rw [h1, h2]
        exact iff_of_true rfl (Or.inr ⟨hspos, hv1000⟩)
      · push_neg at hv1000
        have hyes : s < v / 1000 := by
          rw [lt_div_iff (by norm_num : (0 : ℚ) < 1000)]
          linarith
        have h2 : value_fixed (v / 1000) s = v / 1000 / 1000 := by
          rw [value_fixed, if_pos ((hcond (v / 1000)).mpr hyes)]
        rw [h1, h2]
        apply iff_of_false
        · intro h
          have hvpos : 0 < v := by nlinarith
          rw [div_div] at h
          have h' := (div_eq_div_iff (by norm_num : (1000 * 1000 : ℚ) ≠ 0)
            (by norm_num : (1000 : ℚ) ≠ 0)).mp h
          linarith
        · rintro (⟨hs0, _⟩ | ⟨_, hle⟩)
          · exact absurd hs0 (ne_of_gt hspos)
          · linarith

/-- C2 witness: at value 500000 and share count 100000 (the end-to-end scenario's
second holding) the amended idempotence criterion holds. -/
theorem c2_amended_witness :
    value_fixed (value_fixed 500000 100000) 100000 = value_fixed 500000 100000 :=
  (c2_amended 500000 100000 (by norm_num)).mpr (Or.inr ⟨by norm_num, by norm_num⟩)

/-- C3 counterexample: a position element missing its `value` field does not get a
zero default; instead the whole filing's parse returns no holdings, so the intact
"BETA CORP" element is not extracted either. -/
theorem c3_counterexample :
    parse_info_table_xml [c3Missing, c3Full] "acc-3" "100" "2024-08-14"
        ⟨2024, 6, 30⟩ "M" = [] ∧
      ¬ ∃ h ∈ parse_info_table_xml [c3Missing, c3Full] "acc-3" "100" "2024-08-14"
        ⟨2024, 6, 30⟩ "M", h.name_of_issuer = "BETA CORP" := by
  refine ⟨rfl, ?_⟩
  rintro ⟨h, hmem, _⟩
  rw [show parse_info_table_xml [c3Missing, c3Full] "acc-3" "100" "2024-08-14"
    ⟨2024, 6, 30⟩ "M" = [] from rfl] at hmem
  exact absurd hmem (List.not_mem_nil h)

/-- C3 amended: the structured-markup parser never raises, but field defaults are
not applied per element: when every position element carries all four fields it
yields one holding per element, and when any element lacks a field the caught
exception discards the whole filing's holdings (empty result). -/
theorem c3_amended (tables : List InfoTable) (a c f : String) (p : PDate)
    (m : String) :
    parse_info_table_xml tables a c f p m =
      if tables.all hasAllFields then
        tables.map (fun t =>
          { accession_number := a, cik := c, filing_date := f,
            period_of_report := p, filing_manager_name := m,
            name_of_issuer := t.nameOfIssuer.getD "", cusip := t.cusip.getD "",
            value := (t.value.getD 0) * 1000, sshprnamt := t.sshPrnamt.getD 0 })
      else [] :=
  parse_info_table_xml_eq tables a c f p m

/-- C5: the quarter selection keeps at most 4 quarters, always includes "2024Q1"
when it occurs in the data, is sorted ascending, draws every non-anchor selected
quarter from the quarters present, and selects most-recent first: any present
quarter more recent than a selected non-anchor quarter is itself selected. -/
theorem c5_quarter_selection (hs : List RawHolding) :
    (select_target_quarters ((hs.map normalize).map (·.quarter))).length ≤ 4 ∧
    (q2024Q1 ∈ (hs.map normalize).map (·.quarter) →
      q2024Q1 ∈ select_target_quarters ((hs.map normalize).map (·.quarter))) ∧
    (select_target_quarters ((hs.map normalize).map (·.quarter))).Pairwise (· ≤ ·) ∧
    (∀ q ∈ select_target_quarters ((hs.map normalize).map (·.quarter)),
      q = q2024Q1 ∨ q ∈ (hs.map normalize).map (·.quarter)) ∧
    (∀ q ∈ (hs.map normalize).map (·.quarter),
      ∀ q' ∈ select_target_quarters ((hs.map normalize).map (·.quarter)),
        q' ≠ q2024Q1 → q' < q →
          q ∈ select_target_quarters ((hs.map normalize).map (·.quarter))) :=
  ⟨select_length_le _, fun _ => anchor_mem_select _, select_sorted _,
    select_subset _, fun q hq q' hq' => select_most_recent q hq q' hq'⟩

/-- C5 witness: on a dataset with quarters 2023Q3 and 2024Q1 the anchor quarter is
selected. -/
theorem c5_witness :
    q2024Q1 ∈ select_target_quarters ((c5DemoHs.map normalize).map (·.quarter)) :=
  (c5_quarter_selection c5DemoHs).2.1 (by decide)

/-- C8: aggregation is order-independent: permuting the raw holdings leaves every
(issuer, quarter) pair's summed `value_fixed` and share count unchanged. -/
theorem c8_aggregation_perm (hs hs' : List RawHolding) (hperm : hs.Perm hs')
    (i : String) (q : Nat) :
    aggValue (filteredRows hs) i q = aggValue (filteredRows hs') i q ∧
      aggSsh (filteredRows hs) i q = aggSsh (filteredRows hs') i q :=
  ⟨aggValue_perm (filteredRows_perm hperm) i q,
    aggSsh_perm (filteredRows_perm hperm) i q⟩

/-- C8 witness: swapping the two holdings of the one-issuer dataset leaves the
issuer's 2024Q3 totals unchanged. -/
theorem c8_witness :
    aggValue (filteredRows c6DemoHs) "OMEGA LLC" (mkQuarter 2024 3) =
      aggValue (filteredRows c6DemoHsRev) "OMEGA LLC" (mkQuarter 2024 3) ∧
    aggSsh (filteredRows c6DemoHs) "OMEGA LLC" (mkQuarter 2024 3) =
      aggSsh (filteredRows c6DemoHsRev) "OMEGA LLC" (mkQuarter 2024 3) :=
  c8_aggregation_perm c6DemoHs c6DemoHsRev
    (by unfold c6DemoHs c6DemoHsRev; exact List.Perm.swap _ _ _)
    "OMEGA LLC" (mkQuarter 2024 3)

/-- C4: an `all_holdings` row is flagged "New Position" if and only if its issuer
has no strictly earlier quarter in the quarter-filtered dataset and its quarter is
one of the two most recent distinct quarters present (at most one distinct present
quarter exceeds it); in particular, on the dataset with selected quarters
2023Q4..2024Q3, the issuer appearing only in 2023Q4 is not flagged while the issuer
first appearing in 2024Q3 is flagged. -/
theorem c4_new_position :
    (∀ hs : List RawHolding, ∀ a ∈ all_holdings (filteredRows hs),
      (a.status = "New Position" ↔
        (¬ ∃ r ∈ filteredRows hs, r.name_of_issuer = a.name_of_issuer ∧
            r.quarter < a.quarter) ∧
        a.quarter ∈ (filteredRows hs).map (·.quarter) ∧
        ((sortedUnique qLt ((filteredRows hs).map (·.quarter))).filter
          (fun y => decide (a.quarter < y))).length ≤ 1)) ∧
    select_target_quarters ((c4DemoHs.map normalize).map (·.quarter)) =
      [mkQuarter 2023 4, mkQuarter 2024 1, mkQuarter 2024 2, mkQuarter 2024 3] ∧
    (∀ a ∈ all_holdings (filteredRows c4DemoHs),
      (a.name_of_issuer = "YANKEE INC" → a.status = "New Position") ∧
      (a.name_of_issuer = "XRAY CO" → a.status ≠ "New Position")) :=
  ⟨fun _ _ ha => status_new_position_iff ha, by decide, by decide⟩

/-- C4 witness: the "YANKEE INC" aggregate row of the demo dataset (index 1 of
`all_holdings`) is flagged "New Position", obtained through the iff. -/
theorem c4_witness :
    ((all_holdings (filteredRows c4DemoHs)).getD 1 dummyAgg).status =
      "New Position" :=
  (c4_new_position.1 c4DemoHs _ (getD_mem (by decide))).mpr (by decide)

/-- C6: in the `changes` view both deltas are nonnegative (absolute values); in the
`all_holdings` view the signed deltas and the previous aggregates are null exactly
when the issuer has no strictly earlier selected quarter; and in both views a
present previous aggregate belongs to the issuer's chronologically immediately
preceding quarter in the filtered dataset. -/
theorem c6_view_deltas (hs : List RawHolding) :
    (∀ c ∈ changes (filteredRows hs), 0 ≤ c.value_change ∧ 0 ≤ c.sshprnamt_change) ∧
    (∀ a ∈ all_holdings (filteredRows hs),
      ((a.value_change = none ↔ a.prev_value = none) ∧
       (a.sshprnamt_change = none ↔ a.prev_value = none) ∧
       (a.prev_sshprnamt = none ↔ a.prev_value = none) ∧
       (a.prev_value = none ↔
         ¬ ∃ r ∈ filteredRows hs, r.name_of_issuer = a.name_of_issuer ∧
           r.quarter < a.quarter)) ∧
      (a.prev_value ≠ none → ∃ q', q' < a.quarter ∧
        (∃ r ∈ filteredRows hs, r.name_of_issuer = a.name_of_issuer ∧
          r.quarter = q') ∧
        (∀ q'', (∃ r ∈ filteredRows hs, r.name_of_issuer = a.name_of_issuer ∧
          r.quarter = q'') → q'' < a.quarter → q'' ≤ q') ∧
        a.prev_value = some (aggValue (filteredRows hs) a.name_of_issuer q') ∧
        a.prev_sshprnamt = some (aggSsh (filteredRows hs) a.name_of_issuer q') ∧
        a.value_change =
          some (a.value_fixed - aggValue (filteredRows hs) a.name_of_issuer q') ∧
        a.sshprnamt_change =
          some (a.sshprnamt - aggSsh (filteredRows hs) a.name_of_issuer q'))) ∧
    (∀ c ∈ changes (filteredRows hs),
      (c.prev_value = none →
        (¬ ∃ r ∈ filteredRows hs, r.name_of_issuer = c.name_of_issuer ∧
          r.quarter < c.quarter) ∧
        c.value_change = |c.value_fixed| ∧ c.sshprnamt_change = |c.sshprnamt|) ∧
      (∀ pv, c.prev_value = some pv → ∃ q', q' < c.quarter ∧
        (∃ r ∈ filteredRows hs, r.name_of_issuer = c.name_of_issuer ∧
          r.quarter = q') ∧
        (∀ q'', (∃ r ∈ filteredRows hs, r.name_of_issuer = c.name_of_issuer ∧
          r.quarter = q'') → q'' < c.quarter → q'' ≤ q') ∧
        pv = aggValue (filteredRows hs) c.name_of_issuer q' ∧
        c.value_change =
          |c.value_fixed - aggValue (filteredRows hs) c.name_of_issuer q'| ∧
        c.sshprnamt_change =
          |c.sshprnamt - aggSsh (filteredRows hs) c.name_of_issuer q'|)) :=
  ⟨fun _ hc => changes_nonneg hc,
   fun _ ha => ⟨all_holdings_none_iff ha, fun hne => all_holdings_prev_spec ha hne⟩,
   fun _ hc => changes_prev_spec hc⟩

/-- C6 witness: on the one-issuer 2024Q2/2024Q3 dataset, the first `changes` row
has nonnegative deltas, and the second `all_holdings` row (which carries a previous
aggregate) references an immediately preceding quarter. -/
theorem c6_witness :
    (0 ≤ ((changes (filteredRows c6DemoHs)).getD 0 dummyChange).value_change) ∧
    (∃ q', q' < ((all_holdings (filteredRows c6DemoHs)).getD 1 dummyAgg).quarter ∧
      (∃ r ∈ filteredRows c6DemoHs,
        r.name_of_issuer =
          ((all_holdings (filteredRows c6DemoHs)).getD 1 dummyAgg).name_of_issuer ∧
        r.quarter = q') ∧
      (∀ q'', (∃ r ∈ filteredRows c6DemoHs,
        r.name_of_issuer =
          ((all_holdings (filteredRows c6DemoHs)).getD 1 dummyAgg).name_of_issuer ∧
        r.quarter = q'') →
        q'' < ((all_holdings (filteredRows c6DemoHs)).getD 1 dummyAgg).quarter →
        q'' ≤ q') ∧
      ((all_holdings (filteredRows c6DemoHs)).getD 1 dummyAgg).prev_value =
        some (aggValue (filteredRows c6DemoHs)
          ((all_holdings (filteredRows c6DemoHs)).getD 1 dummyAgg).name_of_issuer q') ∧
      ((all_holdings (filteredRows c6DemoHs)).getD 1 dummyAgg).prev_sshprnamt =
        some (aggSsh (filteredRows c6DemoHs)
          ((all_holdings (filteredRows c6DemoHs)).getD 1 dummyAgg).name_of_issuer q') ∧
      ((all_holdings (filteredRows c6DemoHs)).getD 1 dummyAgg).value_change =
        some (((all_holdings (filteredRows c6DemoHs)).getD 1 dummyAgg).value_fixed -
          aggValue (filteredRows c6DemoHs)
            ((all_holdings (filteredRows c6DemoHs)).getD 1 dummyAgg).name_of_issuer q') ∧
      ((all_holdings (filteredRows c6DemoHs)).getD 1 dummyAgg).sshprnamt_change =
        some (((all_holdings (filteredRows c6DemoHs)).getD 1 dummyAgg).sshprnamt -
          aggSsh (filteredRows c6DemoHs)
            ((all_holdings (filteredRows c6DemoHs)).getD 1 dummyAgg).name_of_issuer q')) :=
  ⟨((c6_view_deltas c6DemoHs).1 _ (getD_mem (by decide))).1,
   ((c6_view_deltas c6DemoHs).2.1 _ (getD_mem (by decide))).2 (by decide)⟩

theorem filteredRows_c6_eval :
    filteredRows c6DemoHs =
      [{ name_of_issuer := "OMEGA LLC", quarter := mkQuarter 2024 2,
         value_fixed := 1000, sshprnamt := 10, accession_number := "acc-o1" },
       { name_of_issuer := "OMEGA LLC", quarter := mkQuarter 2024 3,
         value_fixed := 2000, sshprnamt := 10, accession_number := "acc-o2" }] := by
  have hsel : select_target_quarters ((c6DemoHs.map normalize).map (·.quarter)) =
      [mkQuarter 2024 1, mkQuarter 2024 2, mkQuarter 2024 3] := by decide
  simp only [filteredRows, hsel]
  norm_num [c6DemoHs, mkRaw, normalize, value_fixed, quarterOfDate, mkQuarter]

theorem top_holdings_c6_eval :
    top_holdings (filteredRows c6DemoHs) =
      [{ name_of_issuer := "OMEGA LLC", value_fixed := 2000, sshprnamt := 10 }] := by
  rw [top_holdings, latestAggs, filteredRows_c6_eval]
  norm_num [latestQuarter, issuersSorted, sortedUnique, insUnique, sortDescVal,
    insDescVal, mkQuarter]

/-- C7 counterexample: with two issuers tied on summed value and appearing in the
input as "BRAVO CO" before "ALFA CO", the code returns them in issuer-name order
(ALFA first), not in input order as the claim states. -/
theorem c7_counterexample : top_holdings c7TieRows ≠ top_holdings_spec c7TieRows := by
  have s2 : strLt "ALFA CO" "BRAVO CO" = true := by decide
  have b1 : ("ALFA CO" == "BRAVO CO") = false := by decide
  have b2 : ("BRAVO CO" == "ALFA CO") = false := by decide
  have b3 : ("ALFA CO" == "ALFA CO") = true := by decide
  have b4 : ("BRAVO CO" == "BRAVO CO") = true := by decide
  have e1 : top_holdings c7TieRows =
      [{ name_of_issuer := "ALFA CO", value_fixed := 100, sshprnamt := 1 },
       { name_of_issuer := "BRAVO CO", value_fixed := 100, sshprnamt := 1 }] := by
    rw [top_holdings, latestAggs]
    norm_num [c7TieRows, latestQuarter, issuersSorted, sortedUnique, insUnique,
      sortDescVal, insDescVal, mkQuarter, s2, b1, b2, b3, b4]
  have e2 : top_holdings_spec c7TieRows =
      [{ name_of_issuer := "BRAVO CO", value_fixed := 100, sshprnamt := 1 },
       { name_of_issuer := "ALFA CO", value_fixed := 100, sshprnamt := 1 }] := by
    rw [top_holdings_spec]
    norm_num [c7TieRows, latestQuarter, issuersInputOrder, sortDescVal, insDescVal,
      mkQuarter, b1, b2, b3, b4]
  intro h
  rw [e1, e2] at h
  injection h with h1 _
  exact absurd (congrArg (fun r => r.name_of_issuer) h1) (by decide)

/-- C7 amended: `top_holdings` keeps at most 5 rows, sorted by summed value
descending with ties in ascending issuer-name order (the aggregation orders groups
by issuer, and the top-5 selection is stable with respect to that order, not the
input order); each row carries the per-issuer sums of the latest selected quarter,
and no unselected issuer aggregate exceeds any selected one. -/
theorem c7_amended (hs : List RawHolding) :
    (top_holdings (filteredRows hs)).length ≤ 5 ∧
    (top_holdings (filteredRows hs)).Pairwise topOrder ∧
    (∀ x ∈ top_holdings (filteredRows hs),
      x ∈ latestAggs (filteredRows hs) ∧
      x.value_fixed = ((((filteredRows hs).filter
          (fun r => r.quarter == latestQuarter (filteredRows hs))).filter
          (fun r => r.name_of_issuer == x.name_of_issuer)).map (·.value_fixed)).sum ∧
      x.sshprnamt = ((((filteredRows hs).filter
          (fun r => r.quarter == latestQuarter (filteredRows hs))).filter
          (fun r => r.name_of_issuer == x.name_of_issuer)).map (·.sshprnamt)).sum) ∧
    (∀ x ∈ latestAggs (filteredRows hs), x ∉ top_holdings (filteredRows hs) →
      ∀ y ∈ top_holdings (filteredRows hs), x.value_fixed ≤ y.value_fixed) := by
  have hpw : (sortDescVal (latestAggs (filteredRows hs))).Pairwise topOrder :=
    pairwise_sortDescVal (pairwise_latestAggs _)
  refine ⟨List.length_take_le _ _, ?_, ?_, ?_⟩
  · exact hpw.sublist (List.take_sublist _ _)
  · intro x hx
    have hx' : x ∈ latestAggs (filteredRows hs) :=
      mem_sortDescVal.mp (List.mem_of_mem_take hx)
    rcases latestAggs_fields hx' with ⟨h1, h2⟩
    exact ⟨hx', h1, h2⟩
  · intro x hx hnot y hy
    have hx' : x ∈ sortDescVal (latestAggs (filteredRows hs)) :=
      mem_sortDescVal.mpr hx
    rw [← List.take_append_drop 5 (sortDescVal (latestAggs (filteredRows hs)))]
      at hx'
    have hxd : x ∈ (sortDescVal (latestAggs (filteredRows hs))).drop 5 := by
      rcases List.mem_append.mp hx' with h | h
      · exact absurd h hnot
      · exact h
    have hpw' : ((sortDescVal (latestAggs (filteredRows hs))).take 5 ++
        (sortDescVal (latestAggs (filteredRows hs))).drop 5).Pairwise topOrder := by
      rw [List.take_append_drop]
      exact hpw
    have hrel := (List.pairwise_append.mp hpw').2.2 y hy x hxd
    rcases hrel with h | ⟨h, _⟩
    · exact le_of_lt h
    · exact le_of_eq h.symm

/-- C7 witness: on the one-issuer dataset, the top-holdings list has at most 5
rows and its first row is a latest-quarter issuer aggregate. -/
theorem c7_witness :
    (top_holdings (filteredRows c6DemoHs)).length ≤ 5 ∧
    (top_holdings (filteredRows c6DemoHs)).getD 0 dummyTop ∈
      latestAggs (filteredRows c6DemoHs) :=
  ⟨(c7_amended c6DemoHs).1,
   ((c7_amended c6DemoHs).2.2.1 _
     (getD_mem (by rw [top_holdings_c6_eval]; norm_num))).1⟩

theorem parse_xml_demo_eval :
    parse_info_table_xml demoXmlTables "acc-1" "100" "2024-08-14" ⟨2024, 6, 30⟩
      "MANAGER ONE" = [demoXmlHolding] := by
  norm_num [parse_info_table_xml, extractXmlAll, extractXmlHolding, demoXmlTables,
    demoXmlHolding]

theorem parse_text_demo_eval :
    parse_text_info_table demoTextLines "acc-2" "100" "2024-05-15" ⟨2024, 3, 31⟩
      "MANAGER ONE" = some [demoTextHolding] := by
  have h1 : findHeaderSplit demoTextLines =
      some (["NAME", "OF", "ISSUER", "CUSIP", "VALUE", "SHARES"],
            ["ACME CORP COM 123456789 500 100000"]) := by decide
  have h2 : wsTokens "ACME CORP COM 123456789 500 100000" =
      ["ACME", "CORP", "COM", "123456789", "500", "100000"] := by decide
  have h3 : scanFloat "500" = some (false, 500, 0, 0) := by decide
  have h4 : scanFloat "100000" = some (false, 100000, 0, 0) := by decide
  have g1 : dictGet [("NAME", "ACME"), ("OF", "CORP"), ("ISSUER", "COM"),
      ("CUSIP", "123456789"), ("VALUE", "500"), ("SHARES", "100000")] "VALUE" =
      some "500" := by decide
  have g2 : dictGet [("NAME", "ACME"), ("OF", "CORP"), ("ISSUER", "COM"),
      ("CUSIP", "123456789"), ("VALUE", "500"), ("SHARES", "100000")] "SHARES" =
      some "100000" := by decide
  have g3 : dictGet [("NAME", "ACME"), ("OF", "CORP"), ("ISSUER", "COM"),
      ("CUSIP", "123456789"), ("VALUE", "500"), ("SHARES", "100000")] "NAME" =
      some "ACME" := by decide
  have g4 : dictGet [("NAME", "ACME"), ("OF", "CORP"), ("ISSUER", "COM"),
      ("CUSIP", "123456789"), ("VALUE", "500"), ("SHARES", "100000")] "CUSIP" =
      some "123456789" := by decide
  simp [parse_text_info_table, h1, parseTextRows, h2, buildTextHolding,
    g1, g2, g3, g4, parseFloat, h3, h4, demoTextHolding]
  norm_num

theorem demoPipeline_eval : demoPipeline = [demoXmlHolding, demoTextHolding] := by
  rw [demoPipeline, parse_xml_demo_eval, parse_text_demo_eval]
  rfl

theorem demoPipeline_value_fixed :
    (demoPipeline.map normalize).map (·.value_fixed) = [1000, 500] := by
  rw [demoPipeline_eval]
  have hx : value_fixed 1000000 10 = 1000 := by
    rw [value_fixed, if_pos (Or.inr (by norm_num))]
    norm_num
  have ht : value_fixed 500000 100000 = 500 := by
    rw [value_fixed, if_pos (Or.inr (by norm_num))]
    norm_num
  simp [normalize, demoXmlHolding, demoTextHolding, hx, ht]

/-- C1 counterexample: in the end-to-end scenario the normalization step does NOT
produce value_fixed = 1000000 and 500000: the heuristic's ratio is computed on the
stored values already scaled by 1000, so it exceeds 1000 for both holdings and the
correction fires on both. -/
theorem c1_counterexample :
    (demoPipeline.map normalize).map (·.value_fixed) ≠ [1000000, 500000] := by
  rw [demoPipeline_value_fixed]
  intro h
  injection h with h1 _
  norm_num at h1

/-- C1 amended: feeding the two filings through the pipeline, the normalization
step produces value_fixed = 1000 for the structured-markup holding (stored value
1000000, ratio 10^8 > 1000, corrected) and value_fixed = 500 for the legacy-text
holding (stored value 500000, ratio 5000 > 1000, corrected); both parsing
strategies feed the identical normalization path. -/
theorem c1_amended :
    (demoPipeline.map normalize).map (·.value_fixed) = [1000, 500] :=
  demoPipeline_value_fixed

/-- C9 counterexample: a data line with as many whitespace tokens as headers does
not always yield one holding: when its VALUE token is not numeric the uncaught
`float` error aborts the entire parse (`none`), so no holding is produced. -/
theorem c9_counterexample :
    (wordTokens "NAME OF ISSUER                 CUSIP      VALUE  SHARES").length ≤
      (wsTokens "ACME CORP COM 123456789 N/A 100000").length ∧
    parse_text_info_table c9BadLines "acc-9" "100" "2024-05-15" ⟨2024, 3, 31⟩ "M" =
      none :=
  ⟨by decide, by decide⟩

/-- C9 amended: every non-blank data line with fewer whitespace tokens than the
header-row word tokens is silently excluded (removing it does not change the
parse), and whenever the parse completes without a `float` error it returns exactly
one holding per non-blank data line with at least as many tokens as headers; a
non-numeric VALUE or SHARES token instead raises, aborting the whole parse. -/
theorem c9_amended :
    (∀ (hline sep : String) (pre post : List String) (l : String)
      (a c f : String) (p : PDate) (m : String),
      hasSubstr ("NAME OF ISSUER".toList) (hline.toList.map charUpper) = true →
      wsTokens l ≠ [] →
      (wsTokens l).length < (wordTokens hline).length →
      parse_text_info_table (hline :: sep :: (pre ++ l :: post)) a c f p m =
        parse_text_info_table (hline :: sep :: (pre ++ post)) a c f p m) ∧
    (∀ (hline sep : String) (dls : List String) (a c f : String) (p : PDate)
      (m : String) (out : List RawHolding),
      hasSubstr ("NAME OF ISSUER".toList) (hline.toList.map charUpper) = true →
      parse_text_info_table (hline :: sep :: dls) a c f p m = some out →
      out.length = (dls.filter
        (fun l => !(wsTokens l).isEmpty &&
          decide ((wordTokens hline).length ≤ (wsTokens l).length))).length) :=
  ⟨fun _ _ pre post _ _ _ _ _ _ hhdr hnb hshort =>
    parse_text_skip_short pre post hhdr hnb hshort,
   fun _ _ _ _ _ _ _ _ _ hhdr h => parse_text_count hhdr h⟩

/-- C9 witness: on the well-formed demo filing the parse succeeds and returns
exactly one holding for the single qualifying data line. -/
theorem c9_witness :
    ([demoTextHolding] : List RawHolding).length =
      (["ACME CORP COM 123456789 500 100000"].filter
        (fun l => !(wsTokens l).isEmpty &&
          decide ((wordTokens
            "NAME OF ISSUER                 CUSIP      VALUE  SHARES").length ≤
            (wsTokens l).length))).length :=
  c9_amended.2 "NAME OF ISSUER                 CUSIP      VALUE  SHARES"
    "--------------------------------------------------------"
    ["ACME CORP COM 123456789 500 100000"] "acc-2" "100" "2024-05-15"
    ⟨2024, 3, 31⟩ "MANAGER ONE" [demoTextHolding] (by decide) parse_text_demo_eval

/-- C10: both parsers store the filing's reported figure multiplied by 1000 in the
holding's value field at extraction time, and the unit-correction heuristic of the
analytics engine operates on exactly this pre-scaled stored value. -/
theorem c10_prescaled :
    (∀ (t : InfoTable) (v s : ℚ) (a c f : String) (p : PDate) (m : String),
      t.value = some v → t.sshPrnamt = some s →
      ∀ h ∈ parse_info_table_xml [t] a c f p m,
        h.value = v * 1000 ∧ h.sshprnamt = s ∧
        value_fixed h.value h.sshprnamt = value_fixed (v * 1000) s) ∧
    (∀ (hdrs fields : List String) (vs : String) (v : ℚ) (a c f : String)
      (p : PDate) (m : String) (h : RawHolding),
      dictGet (hdrs.zip fields) "VALUE" = some vs → parseFloat vs = some v →
      buildTextHolding hdrs fields a c f p m = some h →
      h.value = v * 1000) ∧
    (∀ h : RawHolding, (normalize h).value_fixed = value_fixed h.value h.sshprnamt) := by
  refine ⟨?_, ?_, fun h => rfl⟩
  · rintro ⟨n, cu, tv, ts⟩ v s a c f p m hv hs h hmem
    obtain rfl : tv = some v := hv
    obtain rfl : ts = some s := hs
    cases n with
    | none => simp [parse_info_table_xml, extractXmlAll, extractXmlHolding] at hmem
    | some nv =>
      cases cu with
      | none => simp [parse_info_table_xml, extractXmlAll, extractXmlHolding] at hmem
      | some cv =>
        have hmem' : h ∈ [(⟨a, c, f, p, m, nv, cv, v * 1000, s⟩ : RawHolding)] := hmem
        rw [List.mem_singleton] at hmem'
        subst hmem'
        exact ⟨rfl, rfl, rfl⟩
  · intro hdrs fields vs v a c f p m h hvd hpv hb
    simp only [buildTextHolding, hvd, hpv] at hb
    cases hd2 : dictGet (hdrs.zip fields) "SHARES" with
    | none =>
      rw [hd2] at hb
      have hb' : some (⟨a, c, f, p, m, (dictGet (hdrs.zip fields) "NAME").getD "",
          (dictGet (hdrs.zip fields) "CUSIP").getD "", v * 1000, 0⟩ : RawHolding) =
          some h := hb
      obtain rfl := Option.some.inj hb'
      rfl
    | some ss =>
      rw [hd2] at hb
      have hb' : ((parseFloat ss).bind fun sh =>
          some (⟨a, c, f, p, m, (dictGet (hdrs.zip fields) "NAME").getD "",
            (dictGet (hdrs.zip fields) "CUSIP").getD "", v * 1000, sh⟩ : RawHolding)) =
          some h := hb
      cases hp2 : parseFloat ss with
      | none =>
        rw [hp2] at hb'
        simp at hb'
      | some sh =>
        rw [hp2] at hb'
        obtain rfl := Option.some.inj hb'
        rfl

/-- C10 witness: the demo structured-markup filing reports figure 1000 with share
count 10; the stored value is 1000 × 1000 and the heuristic receives it. -/
theorem c10_witness :
    ((parse_info_table_xml demoXmlTables "acc-1" "100" "2024-08-14" ⟨2024, 6, 30⟩
        "MANAGER ONE").getD 0 dummyRaw).value = 1000 * 1000 ∧
    value_fixed
        ((parse_info_table_xml demoXmlTables "acc-1" "100" "2024-08-14"
          ⟨2024, 6, 30⟩ "MANAGER ONE").getD 0 dummyRaw).value
        ((parse_info_table_xml demoXmlTables "acc-1" "100" "2024-08-14"
          ⟨2024, 6, 30⟩ "MANAGER ONE").getD 0 dummyRaw).sshprnamt =
      value_fixed (1000 * 1000) 10 := by
  have happ := c10_prescaled.1
    ⟨some "GAMMA CORP", some "CUSIP0001", some 1000, some 10⟩ 1000 10
    "acc-1" "100" "2024-08-14" ⟨2024, 6, 30⟩ "MANAGER ONE" rfl rfl
    ((parse_info_table_xml demoXmlTables "acc-1" "100" "2024-08-14" ⟨2024, 6, 30⟩
      "MANAGER ONE").getD 0 dummyRaw) (getD_mem (by decide))
  exact ⟨happ.1, happ.2.2⟩

end Sec13F
